import Mathlib

/-!
Verification development for the sops structured-secrets editor
(`src/sops/__init__.py`), a tree-walking encryption engine.

Modelling conventions (shallow embedding of the Python source):

* Python byte strings are modelled as Lean `String`s through their UTF-8
  decoding: `k.encode('utf-8')` is the identity, `b':'` is `":"`, and
  concatenation of byte strings is `String` append.  All byte strings the
  claims touch (AAD, cleartext leaf encodings, digest input) arise as UTF-8
  encodings of strings, so this identification is faithful; the
  `cleartext.decode('utf-8')` fallback to raw bytes in `decrypt` (which can
  only fire on byte strings that are not valid UTF-8) is consequently dead
  in the model and `str`-typed cleartext decodes to a `str` directly.
* AES-256-GCM is modelled symbolically: the ciphertext field of an envelope
  carries the cleartext (the cipher is a bijection given key and IV, and the
  model never reveals it without a successful tag check), and the 16-byte
  GCM tag is modelled as the quadruple (key, iv, aad, ciphertext) that
  determines it.  Decryption verifies the tag by comparing that quadruple
  against the supplied key/AAD and the stored iv/data, exactly the
  success/failure behaviour of GCM tag verification (`AuthenticationFailed`
  on any mismatch).  Keys and IVs are opaque `Nat`s; their byte length (32)
  is not modelled.
* `os.urandom(32)` is modelled by an explicit entropy stream `ivs : Nat → Nat`
  together with a counter `g`: each fresh IV request returns `ivs g` and
  advances the counter.
* SHA-512 state is modelled by the exact byte sequence absorbed so far (a
  `String`); `hexdigest().upper()` applies a symbolic injective compression
  (the codepoint sequence) followed by real uppercase-hex formatting.
* A Python `float` object is modelled by its canonical textual
  representation (`repr`), which is a faithful bijection; `float(s)` on a
  canonical string (the only cleartexts `encrypt` produces) is the identity
  in this representation.
* Ordered dictionaries are association lists; assignment keeps the position
  of an existing key and appends a new one, as in Python.
* An encrypted leaf is the `Node.enc` constructor rather than the literal
  `ENC[AES256_GCM,...]` string; the envelope regex in `decrypt` matching is
  the `Node.enc` case, and a `Node.str` leaf stands for a Python string that
  does not match the envelope regex (so `decrypt` returns it unchanged).
  Re-encrypting an already-encrypted leaf (a `str` in Python) encrypts its
  symbolic rendering `envText`.
* The `ruamel.yaml` preserved-literal string wrapper branch (which only
  re-wraps the result of `encrypt`/`decrypt` in the same marker) is not
  modelled; leaves are the five scalar types plus envelopes.
* The format version `0.9` is modelled in tenths: `ver = 9` is version 0.9,
  and the comparisons `INPUT_VERSION >= 0.9` / `>= 0.8` are `9 ≤ ver` /
  `8 ≤ ver`.
* Calls into AWS KMS (boto3 session creation, including its local ARN-regex
  validation, and the KMS encrypt call) and into the gpg child process are
  external effects, modelled as oracle function parameters.
-/

/-! ### Small helpers: Python primitives used by the engine -/

/-- Python `bytes.lower()` on one byte (ASCII-only lowercasing). -/
def lowerByte (c : Char) : Char :=
  if 65 ≤ c.toNat ∧ c.toNat ≤ 90 then Char.ofNat (c.toNat + 32) else c

/-- Python `bytes.lower()`: ASCII lowercasing of every byte. -/
def lowerStr (s : String) : String := ⟨s.data.map lowerByte⟩

/-- One uppercase hexadecimal digit (0-9, A-F). -/
def hexChar (n : Nat) : Char :=
  if n < 10 then Char.ofNat (48 + n) else Char.ofNat (55 + n)

/-- Two uppercase hex characters for one byte. -/
def byteHex (b : Nat) : String := ⟨[hexChar (b / 16 % 16), hexChar (b % 16)]⟩

/-- The symbolic SHA-512 compression: an injective map from the absorbed byte
sequence to a byte list (here, its codepoint sequence).  Only injectivity and
executability of the compression matter to the claims; the subsequent
uppercase-hex formatting is modelled for real. -/
def shaBytes (s : String) : List Nat := s.data.map Char.toNat

/-- Model of `hashlib.sha512(absorbed).hexdigest().upper()`: uppercase
hexadecimal rendering of the symbolic digest of the absorbed bytes. -/
def hexdigestUpper (s : String) : String := String.join ((shaBytes s).map byteHex)

/-- Little-endian decimal digits of a positive number, with explicit fuel
(any fuel at least the number itself suffices) so evaluation is structural. -/
def natDigits (fuel n : Nat) : List Nat :=
  match fuel with
  | 0 => []
  | fuel + 1 => if n = 0 then [] else n % 10 :: natDigits fuel (n / 10)

/-- Python `str(n)` for a natural number: decimal ASCII. -/
def natStr (n : Nat) : String :=
  if n = 0 then "0"
  else ⟨((natDigits n n).map (fun d => Char.ofNat (48 + d))).reverse⟩

/-- Python `str(i)` for an integer: decimal ASCII with a leading minus sign
for negative values. -/
def intStr (i : Int) : String :=
  if i < 0 then "-" ++ natStr i.natAbs else natStr i.natAbs

/-- Whether a character is an ASCII decimal digit. -/
def isDigitB (c : Char) : Bool := decide (48 ≤ c.toNat ∧ c.toNat ≤ 57)

/-- Horner evaluation of a big-endian digit-character list. -/
def digitsToNat (cs : List Char) : Nat :=
  cs.foldl (fun a c => 10 * a + (c.toNat - 48)) 0

/-- Parse a nonempty all-digit character list as a natural number. -/
def parseNatQ (cs : List Char) : Option Nat :=
  if cs ≠ [] ∧ cs.all isDigitB then some (digitsToNat cs) else none

/-- Model of Python `int(s)` on the decimal strings produced by `str(int)`:
an optional leading minus sign followed by decimal digits.  (Python's `int`
additionally tolerates surrounding whitespace, an explicit plus sign and
underscores; none of those occur in cleartexts produced by `encrypt`.) -/
def str2int (s : String) : Option Int :=
  match s.data with
  | [] => none
  | c :: cs =>
    if c = '-' then (parseNatQ cs).map (fun n => -(n : Int))
    else (parseNatQ (c :: cs)).map (fun n => (n : Int))

/-- Association-list lookup, modelling Python dict indexing. -/
def alookup {α : Type} : List (String × α) → String → Option α
  | [], _ => none
  | (k', v') :: rest, k => if k' = k then some v' else alookup rest k

/-- Association-list assignment, modelling Python dict assignment: an
existing key keeps its position, a new key is appended at the end. -/
def aset {α : Type} : List (String × α) → String → α → List (String × α)
  | [], k, v => [(k, v)]
  | (k', v') :: rest, k, v =>
    if k' = k then (k, v) :: rest else (k', v') :: aset rest k v

/-- Remove a key from an association list (used only to state "equal outside
the sops entry"). -/
def aerase {α : Type} : List (String × α) → String → List (String × α)
  | [], _ => []
  | (k', v') :: rest, k => if k' = k then aerase rest k else (k', v') :: aerase rest k

/-! ### The data model: envelopes, document trees, stash, errors -/

/-- One encrypted leaf, the parsed form of the envelope string
`ENC[AES256_GCM,data:...,iv:...,tag:...,type:...]`.  `data` carries the
ciphertext (symbolically: the cleartext, recoverable only through a
successful tag check); `tagKey`/`tagIv`/`tagAad`/`tagCt` are the quadruple
modelling the 16-byte GCM tag; `valtype` is the `type:` tag. -/
structure Envelope where
  data : String
  iv : Nat
  tagKey : Nat
  tagIv : Nat
  tagAad : String
  tagCt : String
  valtype : String
deriving DecidableEq, Repr

/-- The genuine GCM tag for a given key, IV, AAD and ciphertext. -/
def mkEnv (clear : String) (key iv : Nat) (aad : String) (valtype : String) : Envelope :=
  ⟨clear, iv, key, iv, aad, clear, valtype⟩

/-- A document tree node: the five scalar leaf types of the source
(`str`, `int` — with `float` carried as its canonical repr string —, `bool`,
`bytes`), an encrypted-envelope leaf, an insertion-ordered mapping, or a
list. -/
inductive Node where
  | str (s : String)
  | int (n : Int)
  | float (r : String)
  | bool (b : Bool)
  | bytes (b : String)
  | enc (e : Envelope)
  | map (fields : List (String × Node))
  | arr (items : List Node)
deriving Repr

mutual
def nodeDecEq : (a b : Node) → Decidable (a = b)
  | .str s, .str t =>
    match decEq s t with
    | isTrue h => isTrue (by rw [h])
    | isFalse h => isFalse (fun e => h (by cases e; rfl))
  | .str _, .int _ => isFalse (fun h => Node.noConfusion h)
  | .str _, .float _ => isFalse (fun h => Node.noConfusion h)
  | .str _, .bool _ => isFalse (fun h => Node.noConfusion h)
  | .str _, .bytes _ => isFalse (fun h => Node.noConfusion h)
  | .str _, .enc _ => isFalse (fun h => Node.noConfusion h)
  | .str _, .map _ => isFalse (fun h => Node.noConfusion h)
  | .str _, .arr _ => isFalse (fun h => Node.noConfusion h)
  | .int _, .str _ => isFalse (fun h => Node.noConfusion h)
  | .int n, .int m =>
    match decEq n m with
    | isTrue h => isTrue (by rw [h])
    | isFalse h => isFalse (fun e => h (by cases e; rfl))
  | .int _, .float _ => isFalse (fun h => Node.noConfusion h)
  | .int _, .bool _ => isFalse (fun h => Node.noConfusion h)
  | .int _, .bytes _ => isFalse (fun h => Node.noConfusion h)
  | .int _, .enc _ => isFalse (fun h => Node.noConfusion h)
  | .int _, .map _ => isFalse (fun h => Node.noConfusion h)
  | .int _, .arr _ => isFalse (fun h => Node.noConfusion h)
  | .float _, .str _ => isFalse (fun h => Node.noConfusion h)
  | .float _, .int _ => isFalse (fun h => Node.noConfusion h)
  | .float r, .float r' =>
    match decEq r r' with
    | isTrue h => isTrue (by rw [h])
    | isFalse h => isFalse (fun e => h (by cases e; rfl))
  | .float _, .bool _ => isFalse (fun h => Node.noConfusion h)
  | .float _, .bytes _ => isFalse (fun h => Node.noConfusion h)
  | .float _, .enc _ => isFalse (fun h => Node.noConfusion h)
  | .float _, .map _ => isFalse (fun h => Node.noConfusion h)
  | .float _, .arr _ => isFalse (fun h => Node.noConfusion h)
  | .bool _, .str _ => isFalse (fun h => Node.noConfusion h)
  | .bool _, .int _ => isFalse (fun h => Node.noConfusion h)
  | .bool _, .float _ => isFalse (fun h => Node.noConfusion h)
  | .bool b, .bool b' =>
    match decEq b b' with
    | isTrue h => isTrue (by rw [h])
    | isFalse h => isFalse (fun e => h (by cases e; rfl))
  | .bool _, .bytes _ => isFalse (fun h => Node.noConfusion h)
  | .bool _, .enc _ => isFalse (fun h => Node.noConfusion h)
  | .bool _, .map _ => isFalse (fun h => Node.noConfusion h)
  | .bool _, .arr _ => isFalse (fun h => Node.noConfusion h)
  | .bytes _, .str _ => isFalse (fun h => Node.noConfusion h)
  | .bytes _, .int _ => isFalse (fun h => Node.noConfusion h)
  | .bytes _, .float _ => isFalse (fun h => Node.noConfusion h)
  | .bytes _, .bool _ => isFalse (fun h => Node.noConfusion h)
  | .bytes b, .bytes b' =>
    match decEq b b' with
    | isTrue h => isTrue (by rw [h])
    | isFalse h => isFalse (fun e => h (by cases e; rfl))
  | .bytes _, .enc _ => isFalse (fun h => Node.noConfusion h)
  | .bytes _, .map _ => isFalse (fun h => Node.noConfusion h)
  | .bytes _, .arr _ => isFalse (fun h => Node.noConfusion h)
  | .enc _, .str _ => isFalse (fun h => Node.noConfusion h)
  | .enc _, .int _ => isFalse (fun h => Node.noConfusion h)
  | .enc _, .float _ => isFalse (fun h => Node.noConfusion h)
  | .enc _, .bool _ => isFalse (fun h => Node.noConfusion h)
  | .enc _, .bytes _ => isFalse (fun h => Node.noConfusion h)
  | .enc e, .enc e' =>
    match decEq e e' with
    | isTrue h => isTrue (by rw [h])
    | isFalse h => isFalse (fun e2 => h (by cases e2; rfl))
  | .enc _, .map _ => isFalse (fun h => Node.noConfusion h)
  | .enc _, .arr _ => isFalse (fun h => Node.noConfusion h)
  | .map _, .str _ => isFalse (fun h => Node.noConfusion h)
  | .map _, .int _ => isFalse (fun h => Node.noConfusion h)
  | .map _, .float _ => isFalse (fun h => Node.noConfusion h)
  | .map _, .bool _ => isFalse (fun h => Node.noConfusion h)
  | .map _, .bytes _ => isFalse (fun h => Node.noConfusion h)
  | .map _, .enc _ => isFalse (fun h => Node.noConfusion h)
  | .map fs, .map fs' =>
    match fieldsDecEq fs fs' with
    | isTrue h => isTrue (by rw [h])
    | isFalse h => isFalse (fun e => h (by cases e; rfl))
  | .map _, .arr _ => isFalse (fun h => Node.noConfusion h)
  | .arr _, .str _ => isFalse (fun h => Node.noConfusion h)
  | .arr _, .int _ => isFalse (fun h => Node.noConfusion h)
  | .arr _, .float _ => isFalse (fun h => Node.noConfusion h)
  | .arr _, .bool _ => isFalse (fun h => Node.noConfusion h)
  | .arr _, .bytes _ => isFalse (fun h => Node.noConfusion h)
  | .arr _, .enc _ => isFalse (fun h => Node.noConfusion h)
  | .arr _, .map _ => isFalse (fun h => Node.noConfusion h)
  | .arr xs, .arr xs' =>
    match itemsDecEq xs xs' with
    | isTrue h => isTrue (by rw [h])
    | isFalse h => isFalse (fun e => h (by cases e; rfl))

def fieldsDecEq : (a b : List (String × Node)) → Decidable (a = b)
  | [], [] => isTrue rfl
  | [], _ :: _ => isFalse (fun h => List.noConfusion h)
  | _ :: _, [] => isFalse (fun h => List.noConfusion h)
  | (k, v) :: rest, (k', v') :: rest' =>
    match decEq k k', nodeDecEq v v', fieldsDecEq rest rest' with
    | isTrue h1, isTrue h2, isTrue h3 => isTrue (by rw [h1, h2, h3])
    | isFalse h1, _, _ => isFalse (fun e => by cases e; exact h1 rfl)
    | _, isFalse h2, _ => isFalse (fun e => by cases e; exact h2 rfl)
    | _, _, isFalse h3 => isFalse (fun e => by cases e; exact h3 rfl)

def itemsDecEq : (a b : List Node) → Decidable (a = b)
  | [], [] => isTrue rfl
  | [], _ :: _ => isFalse (fun h => List.noConfusion h)
  | _ :: _, [] => isFalse (fun h => List.noConfusion h)
  | v :: rest, v' :: rest' =>
    match nodeDecEq v v', itemsDecEq rest rest' with
    | isTrue h2, isTrue h3 => isTrue (by rw [h2, h3])
    | isFalse h2, _ => isFalse (fun e => by cases e; exact h2 rfl)
    | _, isFalse h3 => isFalse (fun e => by cases e; exact h3 rfl)
end

instance : DecidableEq Node := nodeDecEq

/-- The per-leaf record saved in the IV stash during decrypt:
`stash['iv']`, `stash['aad']`, `stash['cleartext']`. -/
structure SLeaf where
  iv : Nat
  aad : String
  cleartext : String
deriving DecidableEq, Repr

/-- A stash tree: a dict shaped like the document.  `dataF` holds the leaf
fields when `decrypt` has saved them at this position; `skids`/`ikids` are
the children keyed by mapping key / list index.  An absent or empty (falsy)
stash dict is `Option.none` at the use sites. -/
inductive Stash where
  | mk (dataF : Option SLeaf) (skids : List (String × Stash)) (ikids : List (Nat × Stash))
deriving Repr

/-- Leaf fields of a stash node. -/
def Stash.dataF : Stash → Option SLeaf
  | .mk d _ _ => d

/-- String-keyed children of a stash node. -/
def Stash.skids : Stash → List (String × Stash)
  | .mk _ s _ => s

/-- Index-keyed children of a stash node. -/
def Stash.ikids : Stash → List (Nat × Stash)
  | .mk _ _ i => i

/-- Fresh stash child, modelling the Python dict containing only the
has-stash marker. -/
def Stash.fresh : Stash := .mk none [] []

/-- Integer-keyed association lookup for stash children. -/
def ilookup {α : Type} : List (Nat × α) → Nat → Option α
  | [], _ => none
  | (k', v') :: rest, k => if k' = k then some v' else ilookup rest k

/-- Integer-keyed association assignment (existing key keeps its position,
new key appended). -/
def iset {α : Type} : List (Nat × α) → Nat → α → List (Nat × α)
  | [], k, v => [(k, v)]
  | (k', v') :: rest, k, v =>
    if k' = k then (k, v) :: rest else (k', v') :: iset rest k v

/-- Failure modes of the engine.  `authenticationFailed` is the
`cryptography` InvalidTag exception raised by GCM finalization;
`integrityMissing` / `integrityMismatch` are the exit-52 / exit-51 aborts of
the root decrypt walk; `unknownType` is the exit-23 abort on an unsupported
type tag; `valueError` is a Python ValueError from `int(...)`;
`keyError` models a Python KeyError/TypeError when the sops branch or its
required fields are absent or of the wrong shape. -/
inductive SopsError where
  | authenticationFailed
  | integrityMissing
  | integrityMismatch
  | unknownType
  | valueError
  | keyError
deriving DecidableEq, Repr

/-! ### The value codec and leaf cipher (`encrypt` / `decrypt` leaf functions) -/

/-- Symbolic rendering of an envelope back to its string form (used only
when an already-encrypted leaf, a `str` in Python, is re-encrypted). -/
def envText (e : Envelope) : String :=
  "ENC[AES256_GCM,data:" ++ e.data ++ ",iv:" ++ natStr e.iv ++ ",tag:" ++
    natStr e.tagKey ++ "." ++ natStr e.tagIv ++ "." ++ e.tagAad ++ "." ++ e.tagCt ++
    ",type:" ++ e.valtype ++ "]"

/-- The `type:` tag chosen by `encrypt` (lines 669-684): the isinstance
chain tests `str` first, then `bool`, then `int`, then `float`, and falls
back to `bytes`.  In the typed model the constructors are disjoint, so the
bool-before-int ordering of the source shows up as `bool` never mapping to
`"int"`. -/
def valtypeOf : Node → String
  | .str _ => "str"
  | .enc _ => "str"
  | .bool _ => "bool"
  | .int _ => "int"
  | .float _ => "float"
  | _ => "bytes"

/-- The cleartext bytes `encrypt` feeds to the cipher and the digest
(lines 686-688): raw bytes for a `bytes` value, otherwise
`str(value).encode('utf-8')`.  Note Python `str(True)` is the capitalised
`"True"`. -/
def encodeClear : Node → String
  | .str s => s
  | .bool b => if b then "True" else "False"
  | .int n => intStr n
  | .float r => r
  | .bytes b => b
  | .enc e => envText e
  | .map _ => ""
  | .arr _ => ""

/-- The leaf encryption function `encrypt(value, key, aad, stash, digest)`
(lines 669-711), with the entropy source explicit: returns the envelope
node, the updated digest, and the updated entropy counter.  The stashed IV
is reused exactly when the stash holds a cleartext equal to the encoded
value; otherwise a fresh IV is drawn from the stream. -/
def encryptLeaf (value : Node) (key : Nat) (aad : String) (stash : Option Stash)
    (digest : Option String) (ivs : Nat → Nat) (g : Nat) :
    Node × Option String × Nat :=
  let valtype := valtypeOf value
  let v := encodeClear value
  let digest' := digest.map (fun d => d ++ v)
  let ivg : Nat × Nat :=
    match stash with
    | some st =>
      match st.dataF with
      | some sl => if sl.cleartext = v then (sl.iv, g) else (ivs g, g + 1)
      | none => (ivs g, g + 1)
    | none => (ivs g, g + 1)
  (.enc (mkEnv v key ivg.1 aad valtype), digest', ivg.2)

/-- Restore a typed value from cleartext bytes and a type tag
(`decrypt`, lines 588-612).  The source tests `bytes`, `str`, `int`,
`float`, `bool` in that order; the bool comparison lowercases first. -/
def decodeTyped (valtype : String) (cleartext : String) : Except SopsError Node :=
  if valtype = "bytes" then .ok (.bytes cleartext)
  else if valtype = "str" then .ok (.str cleartext)
  else if valtype = "int" then
    match str2int cleartext with
    | some n => .ok (.int n)
    | none => .error .valueError
  else if valtype = "float" then .ok (.float cleartext)
  else if valtype = "bool" then .ok (.bool (lowerStr cleartext = "true"))
  else .error .unknownType

/-- The leaf decryption function `decrypt(value, key, aad, stash, digest)`
(lines 555-612).  A non-envelope string is returned unchanged (the regex
did not match).  For an envelope: the GCM tag is verified against the
supplied key and AAD and the stored iv and ciphertext, failing with
`authenticationFailed` on any mismatch; on success the stash (when present)
receives iv/aad/cleartext, the digest (when present) absorbs the cleartext,
and the value is re-typed from the `type:` tag (forced to `str` below
format version 0.8).  The catch-all also returns non-string scalars
unchanged, where the Python source would crash on `value.encode` (line
562); no theorem below depends on that branch — every decrypt they run is
on an encrypt output, whose scalar positions outside the skipped root sops
hold envelopes. -/
def decryptLeaf (value : Node) (key : Nat) (aad : String) (stash : Option Stash)
    (digest : Option String) (ver : Nat) :
    Except SopsError (Node × Option Stash × Option String) :=
  match value with
  | .enc e =>
    if e.tagKey = key ∧ e.tagIv = e.iv ∧ e.tagAad = aad ∧ e.tagCt = e.data then
      let cleartext := e.data
      let stash' := stash.map (fun st => .mk (some ⟨e.iv, aad, cleartext⟩) st.skids st.ikids)
      let digest' := digest.map (fun d => d ++ cleartext)
      let valtype := if 8 ≤ ver then e.valtype else "str"
      match decodeTyped valtype cleartext with
      | .ok v => .ok (v, stash', digest')
      | .error err => .error err
    else .error .authenticationFailed
  | v => .ok (v, stash, digest)

/-! ### The tree walker: encrypt -/

mutual
/-- The per-value dispatch shared verbatim by the loops of
`walk_and_encrypt` (lines 627-638) and `walk_list_and_encrypt`
(lines 657-665): a mapping recurses with `isRoot=False`, a list recurses
into the element loop, anything else is a leaf and is encrypted with the
given AAD and stash. -/
def walkEncNode (v : Node) (key : Nat) (aad : String) (stash : Option Stash)
    (digest : Option String) (ivs : Nat → Nat) (g : Nat) :
    Node × Option String × Nat :=
  match v with
  | .map fs =>
    let r := walkEncFields fs key aad stash digest false ivs g
    (.map r.1, r.2.1, r.2.2)
  | .arr xs =>
    let r := walkEncItems xs key aad stash none digest ivs g 0
    (.arr r.1, r.2.1, r.2.2)
  | v => encryptLeaf v key aad stash digest ivs g

/-- The field loop of `walk_and_encrypt` (lines 615-638): walk the mapping
entries in document order; at the root the `sops` entry is skipped
unconditionally; each mapping key extends the AAD with its UTF-8 bytes and
a colon; the stash child for the key (when present) is passed down; digest
and entropy counter are threaded left to right. -/
def walkEncFields (fields : List (String × Node)) (key : Nat) (aad : String)
    (stash : Option Stash) (digest : Option String) (isRoot : Bool)
    (ivs : Nat → Nat) (g : Nat) :
    List (String × Node) × Option String × Nat :=
  match fields with
  | [] => ([], digest, g)
  | (k, v) :: rest =>
    if isRoot ∧ k = "sops" then
      let r := walkEncFields rest key aad stash digest isRoot ivs g
      ((k, v) :: r.1, r.2.1, r.2.2)
    else
      let caad := aad ++ k ++ ":"
      let nstash := stash.bind (fun st => alookup st.skids k)
      let hd := walkEncNode v key caad nstash digest ivs g
      let r := walkEncFields rest key aad stash hd.2.1 isRoot ivs hd.2.2
      ((k, hd.1) :: r.1, r.2.1, r.2.2)

/-- The element loop of `walk_list_and_encrypt` (lines 650-666): list
elements are walked by ascending index and contribute no AAD bytes (the
parent's AAD is passed through verbatim).  The source initializes the leaf
stash dict `nstash` once, before the loop (`ns` here, the empty falsy dict
at the initial call), and reassigns it only when the current index is a key
of the stash (`if stash and i in stash`, lines 652-656) — so an element at
an index absent from the stash inherits the stash dict of the most recent
present index, and the carried value is threaded through the recursion. -/
def walkEncItems (items : List Node) (key : Nat) (aad : String)
    (stash : Option Stash) (ns : Option Stash) (digest : Option String)
    (ivs : Nat → Nat) (g : Nat) (i : Nat) :
    List Node × Option String × Nat :=
  match items with
  | [] => ([], digest, g)
  | v :: rest =>
    let nstash := match stash.bind (fun st => ilookup st.ikids i) with
      | some c => some c
      | none => ns
    let hd := walkEncNode v key aad nstash digest ivs g
    let r := walkEncItems rest key aad stash nstash hd.2.1 ivs hd.2.2 (i + 1)
    (hd.1 :: r.1, r.2.1, r.2.2)
end

/-- The root invocation of `walk_and_encrypt` (lines 615-647): create the
digest, walk the tree (skipping the root `sops` entry), then store the
timestamp at `sops.lastmodified`, finalize the digest to its uppercase hex
form and store its encryption (AAD = the just-written lastmodified, no
stash, no digest) at `sops.mac`.  Fails (Python KeyError/TypeError) when
the root has no `sops` mapping.  Returns the new tree, the absorbed digest
byte sequence, and the final entropy counter. -/
def walk_and_encrypt (branch : List (String × Node)) (key : Nat)
    (aad : String) (stash : Option Stash) (now : String)
    (ivs : Nat → Nat) (g : Nat) :
    Except SopsError (List (String × Node) × String × Nat) :=
  let r := walkEncFields branch key aad stash (some "") true ivs g
  match alookup r.1 "sops" with
  | some (.map sm) =>
    let sm1 := aset sm "lastmodified" (.str now)
    let dg := r.2.1.getD ""
    let h := hexdigestUpper dg
    let m := encryptLeaf (.str h) key now none none ivs r.2.2
    let sm2 := aset sm1 "mac" m.1
    .ok (aset r.1 "sops" (.map sm2), dg, m.2.2)
  | _ => .error .keyError

/-! ### The tree walker: decrypt -/

mutual
/-- The per-value dispatch shared verbatim by the loops of
`walk_and_decrypt` (lines 507-517) and `walk_list_and_decrypt`
(lines 544-551): a mapping recurses with `isRoot=False` (its loop-carried
AAD re-initialized to the inherited AAD), a list recurses into the element
loop, anything else goes to the leaf `decrypt`. -/
def walkDecNode (v : Node) (key : Nat) (aad : String) (stash : Option Stash)
    (digest : Option String) (ver : Nat) :
    Except SopsError (Node × Option Stash × Option String) :=
  match v with
  | .map fs =>
    match walkDecFields fs key aad stash digest false ver aad with
    | .ok r => .ok (.map r.1, r.2.1, r.2.2.1)
    | .error err => .error err
  | .arr xs =>
    match walkDecItems xs key aad stash digest ver 0 with
    | .ok r => .ok (.arr r.1, r.2.1, r.2.2)
    | .error err => .error err
  | v => decryptLeaf v key aad stash digest ver

/-- The field loop of `walk_and_decrypt` (lines 487-517): walk mapping
entries in document order, skipping `sops` at the root; for format version
≥ 0.9 the AAD for an entry is the inherited AAD extended by the key and a
colon; below 0.9 the key is appended (no separator) to a loop-carried AAD
that persists across siblings.  When a stash dict is present, a fresh child
dict is stored under the key and filled by the recursion.  Returns the new
fields, the updated stash, the updated digest and the final carried AAD. -/
def walkDecFields (fields : List (String × Node)) (key : Nat) (aad : String)
    (stash : Option Stash) (digest : Option String) (isRoot : Bool)
    (ver : Nat) (carry : String) :
    Except SopsError (List (String × Node) × Option Stash × Option String × String) :=
  match fields with
  | [] => .ok ([], stash, digest, carry)
  | (k, v) :: rest =>
    if isRoot ∧ k = "sops" then
      match walkDecFields rest key aad stash digest isRoot ver carry with
      | .ok r => .ok ((k, v) :: r.1, r.2.1, r.2.2.1, r.2.2.2)
      | .error err => .error err
    else
      let caad := if 9 ≤ ver then aad ++ k ++ ":" else carry ++ k
      let carry' := if 9 ≤ ver then carry else caad
      let nstash : Option Stash := stash.map (fun _ => Stash.fresh)
      match walkDecNode v key caad nstash digest ver with
      | .error err => .error err
      | .ok (v', child', digest') =>
        let stash' := match stash, child' with
          | some st, some c => some (Stash.mk st.dataF (aset st.skids k c) st.ikids)
          | s, _ => s
        match walkDecFields rest key aad stash' digest' isRoot ver carry' with
        | .ok r => .ok ((k, v') :: r.1, r.2.1, r.2.2.1, r.2.2.2)
        | .error err => .error err

/-- The element loop of `walk_list_and_decrypt` (lines 536-552): elements by
ascending index, AAD passed through verbatim, stash children keyed by
index. -/
def walkDecItems (items : List Node) (key : Nat) (aad : String)
    (stash : Option Stash) (digest : Option String) (ver : Nat) (i : Nat) :
    Except SopsError (List Node × Option Stash × Option String) :=
  match items with
  | [] => .ok ([], stash, digest)
  | v :: rest =>
    let nstash : Option Stash := stash.map (fun _ => Stash.fresh)
    match walkDecNode v key aad nstash digest ver with
    | .error err => .error err
    | .ok (v', child', digest') =>
      let stash' := match stash, child' with
        | some st, some c => some (Stash.mk st.dataF st.skids (iset st.ikids i c))
        | s, _ => s
      match walkDecItems rest key aad stash' digest' ver (i + 1) with
      | .ok r => .ok (v' :: r.1, r.2.1, r.2.2)
      | .error err => .error err
end

/-- The root invocation of `walk_and_decrypt` (lines 487-533): unless
`ignoreMac` is set, a digest is created and, after the walk, the stored
`sops.mac` envelope is decrypted with AAD = the UTF-8 bytes of
`sops.lastmodified` and compared against the recomputed uppercase hex
digest; a missing `mac` aborts with `integrityMissing` (exit 52), a
mismatch with `integrityMismatch` (exit 51).  With `ignoreMac` set, no
digest is created and neither check runs. -/
def walk_and_decrypt (branch : List (String × Node)) (key : Nat)
    (aad : String) (stash : Option Stash) (ver : Nat) (ignoreMac : Bool) :
    Except SopsError (List (String × Node) × Option Stash) :=
  let digest0 : Option String := if ignoreMac then none else some ""
  match walkDecFields branch key aad stash digest0 true ver aad with
  | .error err => .error err
  | .ok r =>
    if ignoreMac then .ok (r.1, r.2.1)
    else
      match alookup r.1 "sops" with
      | some (.map sm) =>
        match alookup sm "mac" with
        | none => .error .integrityMissing
        | some macv =>
          let h := hexdigestUpper (r.2.2.1.getD "")
          match alookup sm "lastmodified" with
          | some (.str lm) =>
            match decryptLeaf macv key lm none none ver with
            | .error err => .error err
            | .ok origh =>
              if origh.1 ≠ Node.str h then .error .integrityMismatch
              else .ok (r.1, r.2.1)
          | _ => .error .keyError
      | _ => .error .keyError

/-! ### Paths, reference traversal, wellformedness -/

/-- One step of a document path: a mapping key or a list index. -/
inductive PathC where
  | key (k : String)
  | idx (i : Nat)
deriving DecidableEq, Repr

/-- Node lookup along a path. -/
def getAt : Node → List PathC → Option Node
  | n, [] => some n
  | .map fs, .key k :: p => match alookup fs k with
    | some v => getAt v p
    | none => none
  | .arr xs, .idx i :: p => match xs.get? i with
    | some v => getAt v p
    | none => none
  | _, _ => none

/-- The AAD the 0.9+ scheme prescribes for a path: each mapping key followed
by a colon, list indices contributing nothing. -/
def aadOfPath (base : String) : List PathC → String
  | [] => base
  | .key k :: p => aadOfPath (base ++ k ++ ":") p
  | .idx _ :: p => aadOfPath base p

/-- When walking a root mapping, paths through the `sops` entry are outside
the walk; this is the side condition excluding them (trivial off the root). -/
def headNotSops (isRoot : Bool) : List PathC → Prop
  | .key k :: _ => isRoot → k ≠ "sops"
  | _ => True

instance (b : Bool) (p : List PathC) : Decidable (headNotSops b p) := by
  unfold headNotSops
  cases p with
  | nil => exact inferInstanceAs (Decidable True)
  | cons c rest => cases c with
    | key k => exact inferInstanceAs (Decidable (b → k ≠ "sops"))
    | idx i => exact inferInstanceAs (Decidable True)

/-- Stash navigation along a path, mirroring the walkers' child lookups
(string keys into `skids`, indices into `ikids`, absent child = falsy). -/
def stashAt : Option Stash → List PathC → Option Stash
  | s, [] => s
  | s, .key k :: p => stashAt (s.bind (fun st => alookup st.skids k)) p
  | s, .idx i :: p => stashAt (s.bind (fun st => ilookup st.ikids i)) p

/-- The stashed IV available for a leaf with the given encoded cleartext:
present exactly when the stash node holds leaf data whose saved cleartext
equals it (the reuse condition of `encrypt`, lines 697-700). -/
def stashIvHit (s : Option Stash) (clear : String) : Option Nat :=
  match s with
  | some st =>
    match st.dataF with
    | some sl => if sl.cleartext = clear then some sl.iv else none
    | none => none
  | none => none

/-- The loop-carried leaf stash of `walk_list_and_encrypt` at offset `j`
from base index `i`, having entered the loop with carried value `ns`: at
each index the carried dict is replaced when the index is present in the
stash and kept otherwise, so the value at offset `j` is the entry of the
greatest present index `≤ i + j`, or `ns` when none is present. -/
def lcar (stash : Option Stash) : Option Stash → Nat → Nat → Option Stash
  | ns, i, 0 =>
    match stash.bind (fun st => ilookup st.ikids i) with
    | some c => some c
    | none => ns
  | ns, i, j + 1 =>
    lcar stash
      (match stash.bind (fun st => ilookup st.ikids i) with
       | some c => some c
       | none => ns) (i + 1) j

/-- The effective stash the encrypt walk consults at a path: mapping keys
navigate into `skids` as the field loop does; a list index navigates via
the loop-carried lookup `lcar` (initial carried value the empty dict,
base index 0), so an absent index falls back to the entry of the nearest
preceding present index. -/
def stashAtE : Option Stash → List PathC → Option Stash
  | s, [] => s
  | s, .key k :: p => stashAtE (s.bind (fun st => alookup st.skids k)) p
  | s, .idx i :: p => stashAtE (lcar s none 0 i) p

mutual
/-- Reference traversal (the claim-side statement of invariant 3): the
concatenated cleartext bytes of the leaves of a node, mapping entries in
document order, list entries by ascending index. -/
def leafBytesN : Node → String
  | .map fs => leafBytesF fs
  | .arr xs => leafBytesI xs
  | v => encodeClear v

/-- Reference traversal over mapping entries. -/
def leafBytesF : List (String × Node) → String
  | [] => ""
  | (_, v) :: rest => leafBytesN v ++ leafBytesF rest

/-- Reference traversal over list elements. -/
def leafBytesI : List Node → String
  | [] => ""
  | v :: rest => leafBytesN v ++ leafBytesI rest
end

/-- Reference traversal over a root mapping: the `sops` entry contributes
nothing. -/
def leafBytesRoot : List (String × Node) → String
  | [] => ""
  | (k, v) :: rest => (if k = "sops" then "" else leafBytesN v) ++ leafBytesRoot rest

mutual
/-- No `Node.enc` leaf anywhere in a node (document is in cleartext form). -/
def encFreeN : Node → Bool
  | .enc _ => false
  | .map fs => encFreeF fs
  | .arr xs => encFreeI xs
  | _ => true

def encFreeF : List (String × Node) → Bool
  | [] => true
  | (_, v) :: rest => encFreeN v && encFreeF rest

def encFreeI : List Node → Bool
  | [] => true
  | v :: rest => encFreeN v && encFreeI rest
end

/-- No `Node.enc` leaf outside the root `sops` entry. -/
def encFreeRoot : List (String × Node) → Bool
  | [] => true
  | (k, v) :: rest => (if k = "sops" then true else encFreeN v) && encFreeRoot rest

/-! ### The key ring: KMS and PGP master-key handling -/

/-- One `sops.kms` recipient entry `{arn, role?, enc, created_at}`; `none`
fields are keys absent from the dict. -/
structure KmsEntry where
  arn : Option String
  role : Option String
  enc : Option String
  created_at : Option String
deriving DecidableEq, Repr

/-- One `sops.pgp` recipient entry `{fp, enc, created_at}`. -/
structure PgpEntry where
  fp : Option String
  enc : Option String
  created_at : Option String
deriving DecidableEq, Repr

/-- The condition under which `update_master_keys` re-wraps an entry:
`not ('enc' in entry) or entry['enc'] == ""`. -/
def needsEnc (e : Option String) : Bool := e = none || e = some ""

/-- `encrypt_key_with_kms(key, entry)` (lines 788-807), with the two
external effects as oracles: `session entry` is whether
`get_aws_session_for_entry` produced a client (its `None` returns cover an
ARN that fails the local regex as well as a failed role assumption), and
`wrap entry` is the KMS encrypt call (`none` = the call raised, `some blob`
= the base64 of the returned ciphertext blob).  A missing or empty ARN or a
failed session returns the entry unchanged; a raised KMS call returns
Python `None` (modelled `none`), erasing the entry; success stores the blob
in `enc` and stamps `created_at`. -/
def encrypt_key_with_kms (session : KmsEntry → Bool) (wrap : KmsEntry → Option String)
    (entry : KmsEntry) (now : String) : Option KmsEntry :=
  if entry.arn.getD "" = "" then some entry
  else if ¬ session entry then some entry
  else
    match wrap entry with
    | none => none
    | some blob => some ⟨entry.arn, entry.role, some blob, some now⟩

/-- `encrypt_key_with_pgp(key, entry)` (lines 875-895), the gpg child
process as an oracle (`none` = the subprocess raised, `some armored` = its
armored stdout).  A missing or empty fingerprint returns the entry
unchanged; a raised subprocess returns Python `None`; success stores the
armored blob and stamps `created_at`. -/
def encrypt_key_with_pgp (gpgWrap : PgpEntry → Option String)
    (entry : PgpEntry) (now : String) : Option PgpEntry :=
  if entry.fp.getD "" = "" then some entry
  else
    match gpgWrap entry with
    | none => none
    | some armored => some ⟨entry.fp, some armored, some now⟩

/-- The `sops` metadata fields `update_master_keys` touches, before the
update: recipient lists (absent when the key is missing) and the numeric
format version (in tenths). -/
structure SopsMeta where
  kms : Option (List KmsEntry)
  pgp : Option (List PgpEntry)
  version : Option Nat
deriving DecidableEq, Repr

/-- The same fields after the update; a recipient slot can now hold Python
`None`. -/
structure SopsMetaOut where
  kms : Option (List (Option KmsEntry))
  pgp : Option (List (Option PgpEntry))
  version : Nat
deriving DecidableEq, Repr

/-- The per-list loop of `update_master_keys` (lines 441-460): entries with
a missing or empty `enc` are replaced in place by the wrap result (which
may be Python `None`); entries already holding a wrapped key are left
alone. -/
def update_kms_list (session : KmsEntry → Bool) (wrap : KmsEntry → Option String)
    (now : String) (l : List KmsEntry) : List (Option KmsEntry) :=
  l.map (fun e => if needsEnc e.enc then encrypt_key_with_kms session wrap e now else some e)

/-- The pgp half of the `update_master_keys` loop (lines 451-460). -/
def update_pgp_list (gpgWrap : PgpEntry → Option String)
    (now : String) (l : List PgpEntry) : List (Option PgpEntry) :=
  l.map (fun e => if needsEnc e.enc then encrypt_key_with_pgp gpgWrap e now else some e)

/-- `update_master_keys(tree, key)` (lines 437-469) on the metadata view:
re-wrap every recipient without a wrapped key, then raise the stored format
version to the writer's version 0.9 when absent or lower. -/
def update_master_keys (session : KmsEntry → Bool) (wrap : KmsEntry → Option String)
    (gpgWrap : PgpEntry → Option String) (now : String) (m : SopsMeta) : SopsMetaOut :=
  ⟨m.kms.map (update_kms_list session wrap now),
   m.pgp.map (update_pgp_list gpgWrap now),
   match m.version with
   | none => 9
   | some v => if v < 9 then 9 else v⟩

/-- `get_key_from_pgp(tree)` (lines 849-872), the `gpg -d` child process as
an oracle `gpgDec : String → Option (List Nat)` (`none` = the subprocess
raised, otherwise its stdout bytes).  Entries without an `enc` field are
skipped, a raised subprocess skips the entry, and a candidate is accepted
exactly when the output is 32 bytes long; the first accepted key is
returned, `none` when no entry yields one (including when the tree has no
`sops.pgp` list at all). -/
def get_key_from_pgp_list (gpgDec : String → Option (List Nat)) :
    List PgpEntry → Option (List Nat)
  | [] => none
  | e :: rest =>
    match e.enc with
    | none => get_key_from_pgp_list gpgDec rest
    | some enc =>
      match gpgDec enc with
      | none => get_key_from_pgp_list gpgDec rest
      | some key =>
        if key.length = 32 then some key else get_key_from_pgp_list gpgDec rest

/-- The full `get_key_from_pgp`, with the absent-`pgp`-branch KeyError path. -/
def get_key_from_pgp (gpgDec : String → Option (List Nat)) :
    Option (List PgpEntry) → Option (List Nat)
  | none => none
  | some l => get_key_from_pgp_list gpgDec l

/-- Claim-side restatement of the pgp unwrap rule: among the entries that
have an `enc`, whose subprocess succeeds and whose output is exactly 32
bytes, return the first output. -/
def pgpFirst32 (gpgDec : String → Option (List Nat)) (l : List PgpEntry) :
    Option (List Nat) :=
  (l.filterMap (fun e =>
    (e.enc.bind gpgDec).bind (fun k => if k.length = 32 then some k else none))).head?

/-! ### Concrete documents and streams used by the closed instances -/

/-- A deterministic entropy stream for concrete runs. -/
def ivsA : Nat → Nat := fun n => 1000 + n

/-- A second entropy stream, disjoint from `ivsA`, for re-encryption runs. -/
def ivsB : Nat → Nat := fun n => 5000 + n

/-- A small concrete document with a sops branch and leaves of all five
scalar types, nested mappings and a list. -/
def D0 : List (String × Node) :=
  [("a", .str "hello"),
   ("b", .map [("n", .int 42), ("f", .float "3.5"), ("t", .bool true), ("y", .bytes "raw")]),
   ("c", .arr [.int 1, .str "two", .map [("deep", .bool false)]]),
   ("sops", .map [("version", .float "0.9")])]

/-- Replace `sops.lastmodified` of a tree (the tamper operation of the
lastmodified/mac pairing scenario); trees without a sops mapping are
returned unchanged. -/
def setLastmod (fields : List (String × Node)) (lm : String) : List (String × Node) :=
  match alookup fields "sops" with
  | some (.map sm) => aset fields "sops" (.map (aset sm "lastmodified" (.str lm)))
  | _ => fields

/-- A document whose stored mac decrypts fine but disagrees with the
recomputed digest (the leaf digest is "x", whose uppercase hex digest is
"78", while the stored mac says "WRONG"). -/
def F5 : List (String × Node) :=
  [("a", .enc (mkEnv "x" 7 1 "a:" "str")),
   ("sops", .map [("lastmodified", .str "T"),
                  ("mac", .enc (mkEnv "WRONG" 7 2 "T" "str"))])]

/-! ### Decidability instances and wellformedness -/

mutual
def stashDecEq : (a b : Stash) → Decidable (a = b)
  | .mk d s i, .mk d' s' i' =>
    match decEq d d', stashSDecEq s s', stashIDecEq i i' with
    | isTrue h1, isTrue h2, isTrue h3 => isTrue (by rw [h1, h2, h3])
    | isFalse h1, _, _ => isFalse (fun e => by cases e; exact h1 rfl)
    | _, isFalse h2, _ => isFalse (fun e => by cases e; exact h2 rfl)
    | _, _, isFalse h3 => isFalse (fun e => by cases e; exact h3 rfl)

def stashSDecEq : (a b : List (String × Stash)) → Decidable (a = b)
  | [], [] => isTrue rfl
  | [], _ :: _ => isFalse (fun h => List.noConfusion h)
  | _ :: _, [] => isFalse (fun h => List.noConfusion h)
  | (k, v) :: rest, (k', v') :: rest' =>
    match decEq k k', stashDecEq v v', stashSDecEq rest rest' with
    | isTrue h1, isTrue h2, isTrue h3 => isTrue (by rw [h1, h2, h3])
    | isFalse h1, _, _ => isFalse (fun e => by cases e; exact h1 rfl)
    | _, isFalse h2, _ => isFalse (fun e => by cases e; exact h2 rfl)
    | _, _, isFalse h3 => isFalse (fun e => by cases e; exact h3 rfl)

def stashIDecEq : (a b : List (Nat × Stash)) → Decidable (a = b)
  | [], [] => isTrue rfl
  | [], _ :: _ => isFalse (fun h => List.noConfusion h)
  | _ :: _, [] => isFalse (fun h => List.noConfusion h)
  | (k, v) :: rest, (k', v') :: rest' =>
    match decEq k k', stashDecEq v v', stashIDecEq rest rest' with
    | isTrue h1, isTrue h2, isTrue h3 => isTrue (by rw [h1, h2, h3])
    | isFalse h1, _, _ => isFalse (fun e => by cases e; exact h1 rfl)
    | _, isFalse h2, _ => isFalse (fun e => by cases e; exact h2 rfl)
    | _, _, isFalse h3 => isFalse (fun e => by cases e; exact h3 rfl)
end

instance : DecidableEq Stash := stashDecEq

instance {ε α : Type} [DecidableEq ε] [DecidableEq α] : DecidableEq (Except ε α) :=
  fun a b =>
    match a, b with
    | .ok x, .ok y =>
      match decEq x y with
      | isTrue h => isTrue (by rw [h])
      | isFalse h => isFalse (fun e => h (by cases e; rfl))
    | .error x, .error y =>
      match decEq x y with
      | isTrue h => isTrue (by rw [h])
      | isFalse h => isFalse (fun e => h (by cases e; rfl))
    | .ok _, .error _ => isFalse (fun h => Except.noConfusion h)
    | .error _, .ok _ => isFalse (fun h => Except.noConfusion h)

/-- Whether a node is a scalar leaf (one of the five leaf types, not an
envelope, mapping or list). -/
def isScalarB : Node → Bool
  | .str _ => true
  | .int _ => true
  | .float _ => true
  | .bool _ => true
  | .bytes _ => true
  | _ => false

mutual
/-- Every mapping in the node has pairwise-distinct keys (true of any tree
parsed from Python dicts). -/
def wfKeysN : Node → Bool
  | .map fs => decide ((fs.map Prod.fst).Nodup) && wfKeysF fs
  | .arr xs => wfKeysI xs
  | _ => true

def wfKeysF : List (String × Node) → Bool
  | [] => true
  | (_, v) :: rest => wfKeysN v && wfKeysF rest

def wfKeysI : List Node → Bool
  | [] => true
  | v :: rest => wfKeysN v && wfKeysI rest
end

/-- Distinct keys at the root and in every nested mapping. -/
def wfKeysRoot (fields : List (String × Node)) : Bool :=
  decide ((fields.map Prod.fst).Nodup) && wfKeysF fields

/-! ### Concrete oracles and metadata for the key-ring instances -/

/-- A session oracle that always produces a client. -/
def sessionT : KmsEntry → Bool := fun _ => true

/-- A KMS encrypt call that raises (network failure, access denied, ...). -/
def wrapFailK : KmsEntry → Option String := fun _ => none

/-- A KMS encrypt call that succeeds with a fixed blob. -/
def wrapOkK : KmsEntry → Option String := fun _ => some "QmxvYg=="

/-- A gpg wrap oracle that raises. -/
def gpgWrapFail : PgpEntry → Option String := fun _ => none

/-- A KMS recipient entry with a non-empty ARN and no wrapped key yet. -/
def kmsE0 : KmsEntry :=
  ⟨some "arn:aws:kms:us-east-1:656532927350:key/920aff2e", none, none, none⟩

/-- Metadata with that one KMS recipient and format version 0.8. -/
def m0 : SopsMeta := ⟨some [kmsE0], none, some 8⟩

/-- The digest byte sequence of `D0` (concatenated non-sops leaf encodings). -/
def dgD0 : String := "hello423.5Trueraw1twoFalse"

/-- The mac cleartext of `D0`: uppercase hex of the symbolic digest. -/
def macD0 : String := "68656C6C6F3432332E35547275657261773174776F46616C7365"

/-- The encryption of `D0` under key 7, AAD base "", no stash, timestamp
"NOW" and entropy stream `ivsA` starting at counter 0, written out in
full. -/
def encD0 : List (String × Node) :=
  [("a", .enc (mkEnv "hello" 7 1000 "a:" "str")),
   ("b", .map [("n", .enc (mkEnv "42" 7 1001 "b:n:" "int")),
               ("f", .enc (mkEnv "3.5" 7 1002 "b:f:" "float")),
               ("t", .enc (mkEnv "True" 7 1003 "b:t:" "bool")),
               ("y", .enc (mkEnv "raw" 7 1004 "b:y:" "bytes"))]),
   ("c", .arr [.enc (mkEnv "1" 7 1005 "c:" "int"),
               .enc (mkEnv "two" 7 1006 "c:" "str"),
               .map [("deep", .enc (mkEnv "False" 7 1007 "c:deep:" "bool"))]]),
   ("sops", .map [("version", .float "0.9"),
                  ("lastmodified", .str "NOW"),
                  ("mac", .enc (mkEnv macD0 7 1008 "NOW" "str"))])]

/-- What decrypting `encD0` returns: `D0` with the sops entry as encryption
left it. -/
def outD0 : List (String × Node) :=
  [("a", .str "hello"),
   ("b", .map [("n", .int 42), ("f", .float "3.5"), ("t", .bool true), ("y", .bytes "raw")]),
   ("c", .arr [.int 1, .str "two", .map [("deep", .bool false)]]),
   ("sops", .map [("version", .float "0.9"),
                  ("lastmodified", .str "NOW"),
                  ("mac", .enc (mkEnv macD0 7 1008 "NOW" "str"))])]

/-- A small two-leaf encrypted document used for the stash round-trip
instance (both envelopes valid under key 7 and their path AADs). -/
def Dw : List (String × Node) :=
  [("a", .enc (mkEnv "x" 7 77 "a:" "str")),
   ("b", .enc (mkEnv "y" 7 88 "b:" "str"))]

/-- The stash a decrypt of `Dw` (with a fresh root stash) populates:
one child per key holding the decrypted iv, aad and cleartext. -/
def stW : Stash :=
  .mk none [("a", .mk (some ⟨77, "a:", "x"⟩) [] []),
            ("b", .mk (some ⟨88, "b:", "y"⟩) [] [])] []

/-- The edited document re-encrypted with that stash: the `a` leaf keeps
its cleartext, the `b` leaf changes, and a `sops` mapping is present so
the root encrypt succeeds. -/
def D2w : List (String × Node) :=
  [("a", .str "x"), ("b", .str "CHANGED"), ("sops", .map [])]

/-- The re-encryption of `D2w` under key 7 with stash `stW`, timestamp
"NOW" and entropy stream `ivsB` from counter 0: the unchanged `a` leaf
reuses the stashed IV 77, the changed `b` leaf takes the fresh IV 5000,
the mac the fresh IV 5001. -/
def encD2w : List (String × Node) :=
  [("a", .enc (mkEnv "x" 7 77 "a:" "str")),
   ("b", .enc (mkEnv "CHANGED" 7 5000 "b:" "str")),
   ("sops", .map [("lastmodified", .str "NOW"),
                  ("mac", .enc (mkEnv "784348414E474544" 7 5001 "NOW" "str"))])]

/-- An encrypted document whose only payload is a one-element list. -/
def Dl : List (String × Node) :=
  [("c", .arr [.enc (mkEnv "x" 7 77 "c:" "str")])]

/-- The stash a decrypt of `Dl` populates: the list child holds one entry,
at index 0, with the decrypted iv, aad and cleartext. -/
def stL : Stash :=
  .mk none [("c", .mk none [] [(0, .mk (some ⟨77, "c:", "x"⟩) [] [])])] []

/-- The edited document: the same element duplicated, so index 1 has no
stash entry. -/
def D2l : List (String × Node) :=
  [("c", .arr [.str "x", .str "x"]), ("sops", .map [])]

/-- The re-encryption of `D2l` under key 7 with stash `stL` and entropy
stream `ivsB` from counter 0: both list elements — including the appended
element at index 1, which has no stash entry but inherits index 0's stash
dict — reuse the stashed IV 77; only the mac draws fresh entropy. -/
def encD2l : List (String × Node) :=
  [("c", .arr [.enc (mkEnv "x" 7 77 "c:" "str"), .enc (mkEnv "x" 7 77 "c:" "str")]),
   ("sops", .map [("lastmodified", .str "NOW"),
                  ("mac", .enc (mkEnv "7878" 7 5000 "NOW" "str"))])]

/-! ### Association-list lemmas -/

theorem alookup_aset_self {α : Type} (l : List (String × α)) (k : String) (v : α) :
    alookup (aset l k v) k = some v := by
  induction l with
  | nil => simp [aset, alookup]
  | cons hd rest ih =>
    obtain ⟨k', v'⟩ := hd
    by_cases h : k' = k
    · simp [aset, alookup, h]
    · simp [aset, alookup, h, ih]

theorem alookup_aset_ne {α : Type} (l : List (String × α)) (k k' : String) (v : α)
    (h : k' ≠ k) : alookup (aset l k' v) k = alookup l k := by
  induction l with
  | nil => simp [aset, alookup, h]
  | cons hd rest ih =>
    obtain ⟨k0, v0⟩ := hd
    by_cases h0 : k0 = k'
    · simp [aset, alookup, h0, h]
    · simp [aset, alookup, h0, ih]

theorem aset_aset {α : Type} (l : List (String × α)) (k : String) (v w : α) :
    aset (aset l k v) k w = aset l k w := by
  induction l with
  | nil => simp [aset]
  | cons hd rest ih =>
    obtain ⟨k0, v0⟩ := hd
    by_cases h0 : k0 = k
    · simp [aset, h0]
    · simp [aset, h0, ih]

theorem aerase_aset {α : Type} (l : List (String × α)) (k : String) (v : α) :
    aerase (aset l k v) k = aerase l k := by
  induction l with
  | nil => simp [aset, aerase]
  | cons hd rest ih =>
    obtain ⟨k0, v0⟩ := hd
    by_cases h0 : k0 = k
    · simp [aset, aerase, h0]
    · simp [aset, aerase, h0, ih]

theorem ilookup_iset_ne {α : Type} (l : List (Nat × α)) (k k' : Nat) (v : α)
    (h : k' ≠ k) : ilookup (iset l k' v) k = ilookup l k := by
  induction l with
  | nil => simp [iset, ilookup, h]
  | cons hd rest ih =>
    obtain ⟨k0, v0⟩ := hd
    by_cases h0 : k0 = k'
    · simp [iset, ilookup, h0, h]
    · simp [iset, ilookup, h0, ih]

theorem ilookup_iset_self {α : Type} (l : List (Nat × α)) (k : Nat) (v : α) :
    ilookup (iset l k v) k = some v := by
  induction l with
  | nil => simp [iset, ilookup]
  | cons hd rest ih =>
    obtain ⟨k0, v0⟩ := hd
    by_cases h0 : k0 = k
    · simp [iset, ilookup, h0]
    · simp [iset, ilookup, h0, ih]

/-! ### Decimal printing and parsing round-trip -/

theorem natDigits_ofDigits : ∀ fuel n, n ≤ fuel → Nat.ofDigits 10 (natDigits fuel n) = n := by
  intro fuel
  induction fuel with
  | zero => intro n h; interval_cases n; simp [natDigits, Nat.ofDigits]
  | succ fuel ih =>
    intro n h
    by_cases h0 : n = 0
    · simp [natDigits, h0, Nat.ofDigits]
    · have hdiv : n / 10 ≤ fuel := by omega
      simp [natDigits, h0, Nat.ofDigits_cons, ih _ hdiv]
      omega

theorem natDigits_lt_10 : ∀ fuel n d, d ∈ natDigits fuel n → d < 10 := by
  intro fuel
  induction fuel with
  | zero => intro n d h; simp [natDigits] at h
  | succ fuel ih =>
    intro n d h
    by_cases h0 : n = 0
    · simp [natDigits, h0] at h
    · simp [natDigits, h0] at h
      rcases h with h | h
      · omega
      · exact ih _ _ h

theorem natDigits_ne_nil (n : Nat) (h : n ≠ 0) : natDigits n n ≠ [] := by
  cases n with
  | zero => omega
  | succ m => simp [natDigits]

theorem digitChar_toNat (d : Nat) (h : d < 10) :
    (Char.ofNat (48 + d)).toNat = 48 + d ∧ isDigitB (Char.ofNat (48 + d)) = true := by
  interval_cases d <;> exact ⟨by decide, by decide⟩

theorem digitsToNat_append (xs : List Char) (c : Char) :
    digitsToNat (xs ++ [c]) = 10 * digitsToNat xs + (c.toNat - 48) := by
  simp [digitsToNat, List.foldl_append]

theorem digitsToNat_render (L : List Nat) (hL : ∀ d ∈ L, d < 10) :
    digitsToNat ((L.map (fun d => Char.ofNat (48 + d))).reverse) = Nat.ofDigits 10 L := by
  induction L with
  | nil => simp [digitsToNat, Nat.ofDigits]
  | cons d rest ih =>
    have hd : d < 10 := hL d (by simp)
    have hrest : ∀ x ∈ rest, x < 10 := fun x hx => hL x (by simp [hx])
    have h1 := (digitChar_toNat d hd).1
    simp only [List.map_cons, List.reverse_cons, digitsToNat_append, ih hrest,
      Nat.ofDigits_cons, h1]
    omega

theorem parseNatQ_natStr (n : Nat) : parseNatQ (natStr n).data = some n := by
  by_cases h0 : n = 0
  · subst h0; decide
  · have hne := natDigits_ne_nil n h0
    have hlt := natDigits_lt_10 n n
    have hval := natDigits_ofDigits n n (le_refl n)
    simp only [natStr, h0, if_false]
    have hnonempty : ((natDigits n n).map (fun d => Char.ofNat (48 + d))).reverse ≠ [] := by
      simp [hne]
    have halldig : (((natDigits n n).map (fun d => Char.ofNat (48 + d))).reverse).all isDigitB = true := by
      rw [List.all_eq_true]
      intro c hc
      rw [List.mem_reverse, List.mem_map] at hc
      obtain ⟨d, hd, rfl⟩ := hc
      exact (digitChar_toNat d (hlt d hd)).2
    show parseNatQ ((natDigits n n).map (fun d => Char.ofNat (48 + d))).reverse = some n
    rw [parseNatQ, if_pos ⟨hnonempty, halldig⟩, digitsToNat_render _ hlt, hval]

theorem str2int_intStr (i : Int) : str2int (intStr i) = some i := by
  by_cases hneg : i < 0
  · have hdata : (intStr i).data = '-' :: (natStr i.natAbs).data := by
      simp only [intStr, if_pos hneg]
      rw [String.data_append]
      rfl
    rw [str2int, hdata]
    have hp := parseNatQ_natStr i.natAbs
    have habs : ((i.natAbs : Nat) : Int) = -i :=
      Int.ofNat_natAbs_of_nonpos (le_of_lt hneg)
    simp [hp, habs]
  · have habs : ((i.natAbs : Nat) : Int) = i := by omega
    rcases hd : (natStr i.natAbs).data with _ | ⟨c, cs⟩
    · exfalso
      by_cases h0 : i.natAbs = 0
      · rw [h0] at hd; exact absurd hd (by decide)
      · exact natDigits_ne_nil i.natAbs h0 (by
          have := congrArg List.length hd
          simp only [natStr, h0, if_false] at this
          simp at this
          exact this)
    · have hcdig : isDigitB c = true := by
        have := parseNatQ_natStr i.natAbs
        rw [hd, parseNatQ] at this
        by_cases hcond : (c :: cs ≠ [] ∧ (c :: cs).all isDigitB)
        · have h2 := hcond.2
          simp only [List.all_cons, Bool.and_eq_true] at h2
          exact h2.1
        · rw [if_neg hcond] at this; exact absurd this (by simp)
      have hcne : c ≠ '-' := by
        intro hc
        rw [hc] at hcdig
        exact absurd hcdig (by decide)
      rw [str2int, intStr, if_neg hneg, hd]
      simp only [hcne, if_false]
      rw [← hd, parseNatQ_natStr i.natAbs]
      simp [habs]

/-! ### Codec round-trip -/

theorem decodeTyped_encodeClear (v : Node) (hs : isScalarB v = true) :
    decodeTyped (valtypeOf v) (encodeClear v) = .ok v := by
  cases v with
  | str s => simp [decodeTyped, valtypeOf, encodeClear]
  | int n =>
    simp only [decodeTyped, valtypeOf, encodeClear]
    rw [str2int_intStr]
    simp
  | float r => simp [decodeTyped, valtypeOf, encodeClear]
  | bool b => cases b <;> decide
  | bytes b => simp [decodeTyped, valtypeOf, encodeClear]
  | enc e => exact absurd hs (by simp [isScalarB])
  | map fs => exact absurd hs (by simp [isScalarB])
  | arr xs => exact absurd hs (by simp [isScalarB])

/-! ### Leaf cipher round-trip -/

theorem encryptLeaf_shape (v : Node) (key : Nat) (aad : String) (st : Option Stash)
    (dg : Option String) (ivs : Nat → Nat) (g : Nat) :
    ∃ iv, (encryptLeaf v key aad st dg ivs g).1
      = .enc (mkEnv (encodeClear v) key iv aad (valtypeOf v)) :=
  ⟨_, rfl⟩

theorem decryptLeaf_mkEnv (clear : String) (key iv : Nat) (aad vt : String)
    (st : Option Stash) (dg : Option String) (ver : Nat) (hver : 8 ≤ ver) :
    decryptLeaf (.enc (mkEnv clear key iv aad vt)) key aad st dg ver
      = match decodeTyped vt clear with
        | .ok v => .ok (v, st.map (fun s => .mk (some ⟨iv, aad, clear⟩) s.skids s.ikids),
                        dg.map (fun d => d ++ clear))
        | .error err => .error err := by
  rw [decryptLeaf]
  rw [if_pos ⟨rfl, rfl, rfl, rfl⟩]
  simp only [mkEnv, hver, if_pos]

theorem decryptLeaf_encryptLeaf (v : Node) (hs : isScalarB v = true)
    (key : Nat) (aad : String) (st : Option Stash) (dg dg2 : Option String)
    (ivs : Nat → Nat) (g : Nat) (ver : Nat) (hver : 8 ≤ ver) :
    decryptLeaf ((encryptLeaf v key aad st dg ivs g).1) key aad none dg2 ver
      = .ok (v, none, dg2.map (fun d => d ++ encodeClear v)) := by
  obtain ⟨iv, hE⟩ := encryptLeaf_shape v key aad st dg ivs g
  rw [hE, decryptLeaf_mkEnv _ _ _ _ _ _ _ _ hver, decodeTyped_encodeClear v hs]
  simp

/-! ### Digest accumulation on the encrypt walk -/

mutual
theorem digestEncN (v : Node) (key : Nat) (aad : String) (stash : Option Stash)
    (dg : String) (ivs : Nat → Nat) (g : Nat) :
    (walkEncNode v key aad stash (some dg) ivs g).2.1 = some (dg ++ leafBytesN v) := by
  cases v with
  | map fs =>
    simp only [walkEncNode, leafBytesN]
    exact digestEncF fs key aad stash dg false ivs g
  | arr xs =>
    simp only [walkEncNode, leafBytesN]
    exact digestEncI xs key aad stash none dg ivs g 0
  | str s => simp [walkEncNode, encryptLeaf, leafBytesN]
  | int n => simp [walkEncNode, encryptLeaf, leafBytesN]
  | float r => simp [walkEncNode, encryptLeaf, leafBytesN]
  | bool b => simp [walkEncNode, encryptLeaf, leafBytesN]
  | bytes b => simp [walkEncNode, encryptLeaf, leafBytesN]
  | enc e => simp [walkEncNode, encryptLeaf, leafBytesN]

theorem digestEncF (fields : List (String × Node)) (key : Nat) (aad : String)
    (stash : Option Stash) (dg : String) (b : Bool) (ivs : Nat → Nat) (g : Nat) :
    (walkEncFields fields key aad stash (some dg) b ivs g).2.1
      = some (dg ++ (if b then leafBytesRoot fields else leafBytesF fields)) := by
  cases fields with
  | nil => cases b <;> simp [walkEncFields, leafBytesRoot, leafBytesF]
  | cons hd rest =>
    obtain ⟨k, v⟩ := hd
    rw [walkEncFields]
    split
    · next hks =>
      obtain ⟨hb, hk⟩ := hks
      rw [digestEncF rest key aad stash dg b ivs g]
      simp [hb, hk, leafBytesRoot]
    · next hks =>
      simp only []
      rw [digestEncN v key (aad ++ k ++ ":") (stash.bind (fun st => alookup st.skids k)) dg ivs g]
      rw [digestEncF rest key aad stash (dg ++ leafBytesN v) b ivs
        (walkEncNode v key (aad ++ k ++ ":") (stash.bind (fun st => alookup st.skids k)) (some dg) ivs g).2.2]
      cases b with
      | false => simp [leafBytesF, String.append_assoc]
      | true =>
        have hk : k ≠ "sops" := by
          intro hk
          exact hks ⟨rfl, hk⟩
        simp [leafBytesRoot, hk, String.append_assoc]

theorem digestEncI (items : List Node) (key : Nat) (aad : String)
    (stash ns : Option Stash) (dg : String) (ivs : Nat → Nat) (g : Nat) (i : Nat) :
    (walkEncItems items key aad stash ns (some dg) ivs g i).2.1
      = some (dg ++ leafBytesI items) := by
  cases items with
  | nil => simp [walkEncItems, leafBytesI]
  | cons v rest =>
    rw [walkEncItems]
    simp only []
    rw [digestEncN v key aad
      (match stash.bind (fun st => ilookup st.ikids i) with
       | some c => some c
       | none => ns) dg ivs g]
    rw [digestEncI rest key aad stash
      (match stash.bind (fun st => ilookup st.ikids i) with
       | some c => some c
       | none => ns) (dg ++ leafBytesN v) ivs
      (walkEncNode v key aad
        (match stash.bind (fun st => ilookup st.ikids i) with
         | some c => some c
         | none => ns) (some dg) ivs g).2.2 (i + 1)]
    simp [leafBytesI, String.append_assoc]
end

/-! ### Round-trip of the walks (no stash, format version 0.9) -/

theorem walkEncNode_scalar (v : Node) (hs : isScalarB v = true) (key : Nat)
    (aad : String) (st : Option Stash) (dg : Option String) (ivs : Nat → Nat) (g : Nat) :
    walkEncNode v key aad st dg ivs g = encryptLeaf v key aad st dg ivs g := by
  cases v <;> simp_all [walkEncNode, isScalarB]

theorem walkDecNode_enc (e : Envelope) (key : Nat) (aad : String)
    (st : Option Stash) (dg : Option String) (ver : Nat) :
    walkDecNode (.enc e) key aad st dg ver = decryptLeaf (.enc e) key aad st dg ver := by
  simp [walkDecNode]

theorem leafBytesN_scalar (v : Node) (hs : isScalarB v = true) :
    leafBytesN v = encodeClear v := by
  cases v <;> simp_all [leafBytesN, isScalarB]

theorem rtLeaf (v : Node) (hs : isScalarB v = true) (key : Nat) (aad : String)
    (dg0 dg1 : Option String) (ivs : Nat → Nat) (g : Nat) (ver : Nat) (hver : 9 ≤ ver) :
    walkDecNode ((walkEncNode v key aad none dg0 ivs g).1) key aad none dg1 ver
      = .ok (v, none, dg1.map (fun d => d ++ leafBytesN v)) := by
  rw [walkEncNode_scalar v hs]
  obtain ⟨iv, hE⟩ := encryptLeaf_shape v key aad none dg0 ivs g
  rw [hE, walkDecNode_enc, ← hE]
  rw [decryptLeaf_encryptLeaf v hs key aad none dg0 dg1 ivs g ver (by omega)]
  rw [leafBytesN_scalar v hs]

mutual
theorem rtN (v : Node) (key : Nat) (aad : String) (dg0 dg1 : Option String)
    (ivs : Nat → Nat) (g : Nat) (ver : Nat) (hver : 9 ≤ ver) (hef : encFreeN v = true) :
    walkDecNode ((walkEncNode v key aad none dg0 ivs g).1) key aad none dg1 ver
      = .ok (v, none, dg1.map (fun d => d ++ leafBytesN v)) := by
  cases v with
  | map fs =>
    simp only [walkEncNode]
    simp only [walkDecNode]
    rw [rtF fs key aad dg0 dg1 ivs g ver false hver (by simpa [encFreeN] using hef) aad]
    simp [leafBytesN]
  | arr xs =>
    simp only [walkEncNode]
    simp only [walkDecNode]
    rw [rtI xs key aad dg0 dg1 ivs g ver hver (by simpa [encFreeN] using hef) 0 0]
    simp [leafBytesN]
  | str s => exact rtLeaf (.str s) rfl key aad dg0 dg1 ivs g ver hver
  | int n => exact rtLeaf (.int n) rfl key aad dg0 dg1 ivs g ver hver
  | float r => exact rtLeaf (.float r) rfl key aad dg0 dg1 ivs g ver hver
  | bool b => exact rtLeaf (.bool b) rfl key aad dg0 dg1 ivs g ver hver
  | bytes b => exact rtLeaf (.bytes b) rfl key aad dg0 dg1 ivs g ver hver
  | enc e => exact absurd hef (by simp [encFreeN])

theorem rtF (fields : List (String × Node)) (key : Nat) (aad : String)
    (dg0 dg1 : Option String) (ivs : Nat → Nat) (g : Nat) (ver : Nat) (b : Bool)
    (hver : 9 ≤ ver)
    (hef : (if b then encFreeRoot fields else encFreeF fields) = true) (carry : String) :
    walkDecFields ((walkEncFields fields key aad none dg0 b ivs g).1) key aad none dg1 b ver carry
      = .ok (fields, none,
             dg1.map (fun d => d ++ (if b then leafBytesRoot fields else leafBytesF fields)),
             carry) := by
  cases fields with
  | nil =>
    cases b <;> simp [walkEncFields, walkDecFields, leafBytesRoot, leafBytesF]
  | cons hd rest =>
    obtain ⟨k, v⟩ := hd
    rw [walkEncFields]
    split
    · next hks =>
      obtain ⟨hb, hk⟩ := hks
      rw [walkDecFields]
      rw [if_pos ⟨hb, hk⟩]
      rw [rtF rest key aad dg0 dg1 ivs g ver b hver (by
        subst hb hk
        simpa [encFreeRoot] using hef) carry]
      subst hb hk
      simp [leafBytesRoot]
    · next hks =>
      simp only []
      rw [walkDecFields]
      rw [if_neg hks]
      simp only [if_pos hver, Option.map_none']
      have hefv : encFreeN v = true ∧
          (if b then encFreeRoot rest else encFreeF rest) = true := by
        cases b with
        | false =>
          simpa [encFreeF, Bool.and_eq_true] using hef
        | true =>
          have hk : ¬ k = "sops" := fun hk => hks ⟨rfl, hk⟩
          simpa [encFreeRoot, hk, Bool.and_eq_true] using hef
      simp only [Option.none_bind]
      rw [rtN v key (aad ++ k ++ ":") dg0 dg1 ivs g ver hver hefv.1]
      simp only []
      rw [rtF rest key aad
        ((walkEncNode v key (aad ++ k ++ ":") none dg0 ivs g).2.1)
        (dg1.map (fun d => d ++ leafBytesN v)) ivs
        ((walkEncNode v key (aad ++ k ++ ":") none dg0 ivs g).2.2) ver b hver hefv.2 carry]
      simp only []
      cases b with
      | false =>
        cases dg1 <;> simp [leafBytesF, String.append_assoc]
      | true =>
        have hk : ¬ k = "sops" := fun hk => hks ⟨rfl, hk⟩
        cases dg1 <;> simp [leafBytesRoot, hk, String.append_assoc]

theorem rtI (items : List Node) (key : Nat) (aad : String)
    (dg0 dg1 : Option String) (ivs : Nat → Nat) (g : Nat) (ver : Nat)
    (hver : 9 ≤ ver) (hef : encFreeI items = true) (iE iD : Nat) :
    walkDecItems ((walkEncItems items key aad none none dg0 ivs g iE).1) key aad none dg1 ver iD
      = .ok (items, none, dg1.map (fun d => d ++ leafBytesI items)) := by
  cases items with
  | nil => simp [walkEncItems, walkDecItems, leafBytesI]
  | cons v rest =>
    rw [walkEncItems]
    simp only []
    rw [walkDecItems]
    simp only [Option.map_none']
    have hefv : encFreeN v = true ∧ encFreeI rest = true := by
      simpa [encFreeI, Bool.and_eq_true] using hef
    simp only [Option.none_bind]
    rw [rtN v key aad dg0 dg1 ivs g ver hver hefv.1]
    simp only []
    rw [rtI rest key aad
      ((walkEncNode v key aad none dg0 ivs g).2.1)
      (dg1.map (fun d => d ++ leafBytesN v)) ivs
      ((walkEncNode v key aad none dg0 ivs g).2.2) ver hver hefv.2 (iE + 1) (iD + 1)]
    simp only []
    cases dg1 <;> simp [leafBytesI, String.append_assoc]
end

/-! ### Root bookkeeping lemmas -/

theorem alookup_walkEncF_sops (fields : List (String × Node)) (key : Nat)
    (aad : String) (st : Option Stash) (dg : Option String) (ivs : Nat → Nat) (g : Nat) :
    alookup (walkEncFields fields key aad st dg true ivs g).1 "sops"
      = alookup fields "sops" := by
  induction fields generalizing dg g with
  | nil => simp [walkEncFields]
  | cons hd rest ih =>
    obtain ⟨k, v⟩ := hd
    rw [walkEncFields]
    split
    · next hks =>
      simp only []
      rw [alookup, alookup, if_pos hks.2, if_pos hks.2]
    · next hks =>
      have hk : ¬ k = "sops" := fun hk => hks ⟨rfl, hk⟩
      simp only []
      rw [alookup, alookup, if_neg hk, if_neg hk]
      exact ih _ _

theorem walkDecF_aset_sops (fields : List (String × Node)) (ns : Node) (key : Nat)
    (aad : String) (st : Option Stash) (dg : Option String) (ver : Nat) (carry : String) :
    walkDecFields (aset fields "sops" ns) key aad st dg true ver carry
      = (walkDecFields fields key aad st dg true ver carry).map
          (fun r => (aset r.1 "sops" ns, r.2)) := by
  induction fields generalizing st dg carry with
  | nil =>
    rw [show aset ([] : List (String × Node)) "sops" ns = [("sops", ns)] from rfl]
    simp [walkDecFields, Except.map, aset]
  | cons hd rest ih =>
    obtain ⟨k, v⟩ := hd
    by_cases hk : k = "sops"
    · subst hk
      rw [show aset (("sops", v) :: rest) "sops" ns = ("sops", ns) :: rest by simp [aset]]
      rw [walkDecFields, if_pos ⟨rfl, rfl⟩]
      conv_rhs => rw [walkDecFields, if_pos ⟨rfl, rfl⟩]
      cases hrest : walkDecFields rest key aad st dg true ver carry with
      | error err => simp [Except.map]
      | ok r => simp [Except.map, aset]
    · rw [show aset ((k, v) :: rest) "sops" ns = (k, v) :: aset rest "sops" ns by
        simp [aset, hk]]
      have hnk : ¬ (true = true ∧ k = "sops") := fun h => hk h.2
      rw [walkDecFields, if_neg hnk]
      conv_rhs => rw [walkDecFields, if_neg hnk]
      simp only []
      cases walkDecNode v key (if 9 ≤ ver then aad ++ k ++ ":" else carry ++ k)
          (st.map fun _ => Stash.fresh) dg ver with
      | error err => simp [Except.map]
      | ok trip =>
        obtain ⟨v', child', digest'⟩ := trip
        simp only []
        rw [ih]
        cases walkDecFields rest key aad
            (match st, child' with
             | some s, some c => some (Stash.mk s.dataF (aset s.skids k c) s.ikids)
             | s, _ => s) digest' true ver
            (if 9 ≤ ver then carry else if 9 ≤ ver then aad ++ k ++ ":" else carry ++ k) with
        | error err => simp [Except.map]
        | ok r => simp [Except.map, aset, hk]

/-- Claim C1, amended: decrypting the encryption of a document returns the
document unchanged at every entry except the root `sops` entry, which
`walk_and_encrypt` has overwritten (lastmodified and mac); the decrypt walk
leaves that `sops` entry exactly as encryption produced it. -/
theorem C1_roundtrip_outside_sops
    (D : List (String × Node)) (key : Nat) (now : String) (ivs : Nat → Nat) (g : Nat)
    (ver : Nat) (sm : List (String × Node))
    (hver : 9 ≤ ver)
    (hsm : alookup D "sops" = some (.map sm))
    (hef : encFreeRoot D = true) :
    ∃ encD dg g2 out,
      walk_and_encrypt D key "" none now ivs g = .ok (encD, dg, g2) ∧
      walk_and_decrypt encD key "" none ver false = .ok (out, none) ∧
      aerase out "sops" = aerase D "sops" ∧
      alookup out "sops" = alookup encD "sops" := by
  have hdg : (walkEncFields D key "" none (some "") true ivs g).2.1
      = some ("" ++ leafBytesRoot D) := by
    simpa using digestEncF D key "" none "" true ivs g
  have hsopsE : alookup (walkEncFields D key "" none (some "") true ivs g).1 "sops"
      = some (.map sm) := by
    rw [alookup_walkEncF_sops]; exact hsm
  have hef' : (if true then encFreeRoot D else encFreeF D) = true := by simpa using hef
  refine ⟨aset (walkEncFields D key "" none (some "") true ivs g).1 "sops"
      (.map (aset (aset sm "lastmodified" (.str now)) "mac"
        (encryptLeaf (.str (hexdigestUpper ("" ++ leafBytesRoot D))) key now none none ivs
          (walkEncFields D key "" none (some "") true ivs g).2.2).1)),
    "" ++ leafBytesRoot D,
    (encryptLeaf (.str (hexdigestUpper ("" ++ leafBytesRoot D))) key now none none ivs
      (walkEncFields D key "" none (some "") true ivs g).2.2).2.2,
    aset D "sops"
      (.map (aset (aset sm "lastmodified" (.str now)) "mac"
        (encryptLeaf (.str (hexdigestUpper ("" ++ leafBytesRoot D))) key now none none ivs
          (walkEncFields D key "" none (some "") true ivs g).2.2).1)),
    ?_, ?_, ?_, ?_⟩
  · rw [walk_and_encrypt]
    simp only []
    rw [hsopsE]
    simp only [hdg, Option.getD_some]
  · rw [walk_and_decrypt]
    simp only []
    rw [walkDecF_aset_sops]
    rw [show (if false = true then (none : Option String) else some "") = some "" from rfl]
    rw [rtF D key "" (some "") (some "") ivs g ver true hver hef' ""]
    simp only [Except.map, Option.map_some']
    rw [alookup_aset_self]
    simp only []
    rw [alookup_aset_self]
    simp only []
    rw [alookup_aset_ne _ "lastmodified" "mac" _ (by decide), alookup_aset_self]
    simp only []
    rw [decryptLeaf_encryptLeaf (.str (hexdigestUpper ("" ++ leafBytesRoot D))) rfl
      key now none none none ivs
      (walkEncFields D key "" none (some "") true ivs g).2.2 ver (by omega)]
    simp
  · rw [aerase_aset]
  · rw [alookup_aset_self, alookup_aset_self]

/-- Claim C1, as stated, is false: at the concrete document `D0` the
round-trip succeeds but returns a tree different from `D0` (encryption has
overwritten `sops.lastmodified` and `sops.mac`). -/
theorem C1_counterexample :
    walk_and_encrypt D0 7 "" none "NOW" ivsA 0 = .ok (encD0, dgD0, 9) ∧
    walk_and_decrypt encD0 7 "" none 9 false = .ok (outD0, none) ∧
    outD0 ≠ D0 := by
  refine ⟨?_, ?_, by decide⟩
  · simp [walk_and_encrypt, walkEncFields, walkEncNode, walkEncItems, encryptLeaf,
      encodeClear, valtypeOf, mkEnv, intStr, natStr, natDigits, ivsA, D0, alookup, aset,
      hexdigestUpper, shaBytes, byteHex, hexChar, String.join, encD0, dgD0, macD0]
  · simp [walk_and_decrypt, walkDecFields, walkDecNode, walkDecItems, decryptLeaf,
      decodeTyped, str2int, parseNatQ, isDigitB, digitsToNat, lowerStr, lowerByte,
      alookup, aset, hexdigestUpper, shaBytes, byteHex, hexChar, String.join, intStr,
      natStr, natDigits, encD0, outD0, macD0, mkEnv, D0]

/-- Closed instance of the amended round-trip claim at the document `D0`. -/
theorem C1_roundtrip_outside_sops_witness :
    ∃ encD dg g2 out,
      walk_and_encrypt D0 7 "" none "NOW" ivsA 0 = .ok (encD, dg, g2) ∧
      walk_and_decrypt encD 7 "" none 9 false = .ok (out, none) ∧
      aerase out "sops" = aerase D0 "sops" ∧
      alookup out "sops" = alookup encD "sops" :=
  C1_roundtrip_outside_sops D0 7 "NOW" ivsA 0 9 [("version", .float "0.9")]
    (by omega) (by rfl) (by decide)

/-- Claim C3: the digest absorbed by the encrypt walk is exactly the
concatenated cleartext bytes of the non-sops leaves in traversal order
(`leafBytesRoot`, the reference traversal), and the decrypt walk over the
encrypted output absorbs exactly the same byte sequence. -/
theorem C3_digest_traversal
    (D : List (String × Node)) (key : Nat) (now : String) (ivs : Nat → Nat) (g : Nat)
    (ver : Nat) (sm : List (String × Node))
    (hver : 9 ≤ ver)
    (hsm : alookup D "sops" = some (.map sm))
    (hef : encFreeRoot D = true) :
    ∃ encD g2 out,
      walk_and_encrypt D key "" none now ivs g = .ok (encD, leafBytesRoot D, g2) ∧
      walkDecFields encD key "" none (some "") true ver ""
        = .ok (out, none, some (leafBytesRoot D), "") := by
  have hdg : (walkEncFields D key "" none (some "") true ivs g).2.1
      = some ("" ++ leafBytesRoot D) := by
    simpa using digestEncF D key "" none "" true ivs g
  have hsopsE : alookup (walkEncFields D key "" none (some "") true ivs g).1 "sops"
      = some (.map sm) := by
    rw [alookup_walkEncF_sops]; exact hsm
  have hef' : (if true then encFreeRoot D else encFreeF D) = true := by simpa using hef
  refine ⟨aset (walkEncFields D key "" none (some "") true ivs g).1 "sops"
      (.map (aset (aset sm "lastmodified" (.str now)) "mac"
        (encryptLeaf (.str (hexdigestUpper ("" ++ leafBytesRoot D))) key now none none ivs
          (walkEncFields D key "" none (some "") true ivs g).2.2).1)),
    (encryptLeaf (.str (hexdigestUpper ("" ++ leafBytesRoot D))) key now none none ivs
      (walkEncFields D key "" none (some "") true ivs g).2.2).2.2,
    aset D "sops"
      (.map (aset (aset sm "lastmodified" (.str now)) "mac"
        (encryptLeaf (.str (hexdigestUpper ("" ++ leafBytesRoot D))) key now none none ivs
          (walkEncFields D key "" none (some "") true ivs g).2.2).1)),
    ?_, ?_⟩
  · rw [walk_and_encrypt]
    simp only []
    rw [hsopsE]
    simp only [hdg, Option.getD_some]
    rfl
  · rw [walkDecF_aset_sops]
    rw [rtF D key "" (some "") (some "") ivs g ver true hver hef' ""]
    simp [Except.map]

/-- Closed instance of the digest-traversal claim at the document `D0`. -/
theorem C3_digest_traversal_witness :
    ∃ encD g2 out,
      walk_and_encrypt D0 7 "" none "NOW" ivsA 0 = .ok (encD, leafBytesRoot D0, g2) ∧
      walkDecFields encD 7 "" none (some "") true 9 ""
        = .ok (out, none, some (leafBytesRoot D0), "") :=
  C3_digest_traversal D0 7 "NOW" ivsA 0 9 [("version", .float "0.9")]
    (by omega) (by rfl) (by decide)

/-- Claim C4: the root invocation of `walk_and_encrypt` stores the
timestamp at `sops.lastmodified` and, in the same invocation, stores at
`sops.mac` the encryption of the uppercase hexadecimal digest
finalization as a `str`-typed leaf whose AAD is the UTF-8 bytes of the
just-stored `sops.lastmodified`. -/
theorem C4_mac_stored
    (branch : List (String × Node)) (key : Nat) (aad : String) (stash : Option Stash)
    (now : String) (ivs : Nat → Nat) (g : Nat) (sm : List (String × Node))
    (hsm : alookup branch "sops" = some (.map sm)) :
    ∃ encD dg g2 sm' iv,
      walk_and_encrypt branch key aad stash now ivs g = .ok (encD, dg, g2) ∧
      alookup encD "sops" = some (.map sm') ∧
      alookup sm' "lastmodified" = some (.str now) ∧
      alookup sm' "mac" = some (.enc (mkEnv (hexdigestUpper dg) key iv now "str")) := by
  have hsopsE : alookup (walkEncFields branch key aad stash (some "") true ivs g).1 "sops"
      = some (.map sm) := by
    rw [alookup_walkEncF_sops]; exact hsm
  refine ⟨aset (walkEncFields branch key aad stash (some "") true ivs g).1 "sops"
      (.map (aset (aset sm "lastmodified" (.str now)) "mac"
        (encryptLeaf (.str (hexdigestUpper
            ((walkEncFields branch key aad stash (some "") true ivs g).2.1.getD "")))
          key now none none ivs
          (walkEncFields branch key aad stash (some "") true ivs g).2.2).1)),
    (walkEncFields branch key aad stash (some "") true ivs g).2.1.getD "",
    (encryptLeaf (.str (hexdigestUpper
        ((walkEncFields branch key aad stash (some "") true ivs g).2.1.getD "")))
      key now none none ivs
      (walkEncFields branch key aad stash (some "") true ivs g).2.2).2.2,
    aset (aset sm "lastmodified" (.str now)) "mac"
      (encryptLeaf (.str (hexdigestUpper
          ((walkEncFields branch key aad stash (some "") true ivs g).2.1.getD "")))
        key now none none ivs
        (walkEncFields branch key aad stash (some "") true ivs g).2.2).1,
    ivs (walkEncFields branch key aad stash (some "") true ivs g).2.2,
    ?_, ?_, ?_, ?_⟩
  · rw [walk_and_encrypt]
    simp only []
    rw [hsopsE]
  · rw [alookup_aset_self]
  · rw [alookup_aset_ne _ "lastmodified" "mac" _ (by decide), alookup_aset_self]
  · rw [alookup_aset_self]
    rfl

/-- Closed instance of the mac-storage claim at the document `D0`. -/
theorem C4_mac_stored_witness :
    ∃ encD dg g2 sm' iv,
      walk_and_encrypt D0 7 "" none "NOW" ivsA 0 = .ok (encD, dg, g2) ∧
      alookup encD "sops" = some (.map sm') ∧
      alookup sm' "lastmodified" = some (.str "NOW") ∧
      alookup sm' "mac" = some (.enc (mkEnv (hexdigestUpper dg) 7 iv "NOW" "str")) :=
  C4_mac_stored D0 7 "" none "NOW" ivsA 0 [("version", .float "0.9")] (by rfl)

/-! ### Leaf decryption failure on a wrong AAD -/

theorem decryptLeaf_wrong_aad (clear : String) (key iv : Nat) (aad aad' vt : String)
    (st : Option Stash) (dg : Option String) (ver : Nat) (h : aad ≠ aad') :
    decryptLeaf (.enc (mkEnv clear key iv aad vt)) key aad' st dg ver
      = .error .authenticationFailed := by
  rw [decryptLeaf, if_neg]
  intro hc
  exact h hc.2.2.1

/-- Claim C5, as stated, is false: at the concrete document `F5` the stored
mac decrypts fine but disagrees with the recomputed digest, and while the
plain decrypt fails with `integrityMismatch`, setting the `ignoreMac` flag
makes the very same walk succeed — the flag skips the mismatch check, not
only the missing-mac check. -/
theorem C5_counterexample :
    walk_and_decrypt F5 7 "" none 9 false = .error .integrityMismatch ∧
    walk_and_decrypt F5 7 "" none 9 true
      = .ok ([("a", .str "x"),
              ("sops", .map [("lastmodified", .str "T"),
                             ("mac", .enc (mkEnv "WRONG" 7 2 "T" "str"))])], none) := by
  constructor <;>
    simp [walk_and_decrypt, walkDecFields, walkDecNode, walkDecItems, decryptLeaf,
      decodeTyped, alookup, F5, mkEnv, hexdigestUpper, shaBytes, byteHex, hexChar,
      String.join, Except.map]

/-- Claim C5, amended: on a root decrypt with `ignoreMac` unset, a missing
`sops.mac` aborts with `integrityMissing` and a decrypted mac different
from the recomputed uppercase hex digest aborts with `integrityMismatch`;
the same `ignoreMac` flag that tolerates a missing mac also skips the
mismatch check entirely (no digest is even computed). -/
theorem C5_mac_checks (branch : List (String × Node)) (key : Nat) (aad : String)
    (st : Option Stash) (ver : Nat) :
    (∀ r, walkDecFields branch key aad st (some "") true ver aad = .ok r →
      ∀ sm, alookup r.1 "sops" = some (.map sm) →
        (alookup sm "mac" = none →
          walk_and_decrypt branch key aad st ver false = .error .integrityMissing) ∧
        (∀ macv lm origh, alookup sm "mac" = some macv →
          alookup sm "lastmodified" = some (.str lm) →
          decryptLeaf macv key lm none none ver = .ok origh →
          origh.1 ≠ .str (hexdigestUpper (r.2.2.1.getD "")) →
          walk_and_decrypt branch key aad st ver false = .error .integrityMismatch)) ∧
    (∀ r', walkDecFields branch key aad st none true ver aad = .ok r' →
      walk_and_decrypt branch key aad st ver true = .ok (r'.1, r'.2.1)) := by
  constructor
  · intro r hr sm hsm
    constructor
    · intro hmac
      rw [walk_and_decrypt]
      simp only []
      rw [show (if false = true then (none : Option String) else some "") = some "" from rfl]
      rw [hr]
      simp only [hsm, hmac]
      rfl
    · intro macv lm origh hmac hlm hdec hne
      rw [walk_and_decrypt]
      simp only []
      rw [show (if false = true then (none : Option String) else some "") = some "" from rfl]
      rw [hr]
      simp only [hsm, hmac, hlm, hdec]
      rw [if_neg (by simp)]
      rw [if_pos hne]
  · intro r' hr'
    rw [walk_and_decrypt]
    simp only [if_true]
    rw [hr']

/-- Closed instance of the amended mac-check claim: the mismatch abort at
the document `F5`. -/
theorem C5_mac_checks_witness :
    walk_and_decrypt F5 7 "" none 9 false = .error .integrityMismatch :=
  ((C5_mac_checks F5 7 "" none 9).1
    ([("a", .str "x"),
      ("sops", .map [("lastmodified", .str "T"),
                     ("mac", .enc (mkEnv "WRONG" 7 2 "T" "str"))])], none, some "x", "")
    (by simp [walkDecFields, walkDecNode, decryptLeaf, decodeTyped, F5, mkEnv])
    [("lastmodified", .str "T"), ("mac", .enc (mkEnv "WRONG" 7 2 "T" "str"))]
    (by simp [alookup])).2
    (.enc (mkEnv "WRONG" 7 2 "T" "str")) "T" (.str "WRONG", none, none)
    (by simp [alookup]) (by simp [alookup])
    (by simp [decryptLeaf, decodeTyped, mkEnv])
    (by simp [hexdigestUpper, shaBytes, byteHex, hexChar, String.join])

/-- Claim C7, as stated, is false: encrypting the boolean `true` produces
the capitalised cleartext "True" (Python `str(True)`), not the lowercased
"true" the claim prescribes. -/
theorem C7_counterexample :
    (encryptLeaf (.bool true) 7 "" none none ivsA 0).1
      = .enc (mkEnv "True" 7 1000 "" "bool") ∧
    ¬ ("True" = "true" ∨ "True" = "false") := by
  constructor
  · rfl
  · decide

/-- Claim C7, amended: encoding a bool leaf produces Python's capitalised
text "True" or "False" as the cleartext bytes with type tag `bool` (the
bool test precedes the int test, so the tag is never `int`), and the
decoder lowercases before comparing, so the boolean round-trips. -/
theorem C7_bool_encoding (b : Bool) :
    encodeClear (.bool b) = (if b then "True" else "False") ∧
    valtypeOf (.bool b) = "bool" ∧
    valtypeOf (.bool b) ≠ "int" ∧
    decodeTyped (valtypeOf (.bool b)) (encodeClear (.bool b)) = .ok (.bool b) := by
  cases b <;> exact ⟨rfl, rfl, by decide, by decide⟩

/-- Claim C9, as stated, is false: altering `sops.lastmodified` of the
concrete encrypted document `encD0` makes decrypt fail — but with the GCM
tag failure `authenticationFailed` (the `cryptography` InvalidTag raised
while decrypting `sops.mac` under the altered AAD), not with
`integrityMismatch`. -/
theorem C9_counterexample :
    walk_and_decrypt (setLastmod encD0 "TAMPERED") 7 "" none 9 false
      = .error .authenticationFailed ∧
    (Except.error .authenticationFailed :
        Except SopsError (List (String × Node) × Option Stash))
      ≠ .error .integrityMismatch := by
  constructor
  · simp [walk_and_decrypt, walkDecFields, walkDecNode, walkDecItems, decryptLeaf,
      decodeTyped, alookup, aset, setLastmod, encD0, macD0, mkEnv, hexdigestUpper,
      shaBytes, byteHex, hexChar, String.join, Except.map, str2int, parseNatQ,
      isDigitB, digitsToNat, lowerStr, lowerByte]
  · decide

/-- Claim C9, amended: altering `sops.lastmodified` after encryption while
leaving `sops.mac` intact makes the subsequent decrypt fail with
`authenticationFailed`, because `sops.mac` is decrypted with AAD equal to
the UTF-8 bytes of `sops.lastmodified` and its GCM tag was computed over
the original timestamp. -/
theorem C9_tampered_lastmodified
    (D : List (String × Node)) (key : Nat) (now : String) (ivs : Nat → Nat) (g : Nat)
    (ver : Nat) (sm : List (String × Node)) (lm' : String)
    (hver : 9 ≤ ver)
    (hsm : alookup D "sops" = some (.map sm))
    (hef : encFreeRoot D = true)
    (hlm : lm' ≠ now) :
    ∃ encD dg g2,
      walk_and_encrypt D key "" none now ivs g = .ok (encD, dg, g2) ∧
      walk_and_decrypt (setLastmod encD lm') key "" none ver false
        = .error .authenticationFailed := by
  have hdg : (walkEncFields D key "" none (some "") true ivs g).2.1
      = some ("" ++ leafBytesRoot D) := by
    simpa using digestEncF D key "" none "" true ivs g
  have hsopsE : alookup (walkEncFields D key "" none (some "") true ivs g).1 "sops"
      = some (.map sm) := by
    rw [alookup_walkEncF_sops]; exact hsm
  have hef' : (if true then encFreeRoot D else encFreeF D) = true := by simpa using hef
  refine ⟨aset (walkEncFields D key "" none (some "") true ivs g).1 "sops"
      (.map (aset (aset sm "lastmodified" (.str now)) "mac"
        (encryptLeaf (.str (hexdigestUpper ("" ++ leafBytesRoot D))) key now none none ivs
          (walkEncFields D key "" none (some "") true ivs g).2.2).1)),
    "" ++ leafBytesRoot D,
    (encryptLeaf (.str (hexdigestUpper ("" ++ leafBytesRoot D))) key now none none ivs
      (walkEncFields D key "" none (some "") true ivs g).2.2).2.2,
    ?_, ?_⟩
  · rw [walk_and_encrypt]
    simp only []
    rw [hsopsE]
    simp only [hdg, Option.getD_some]
  · rw [setLastmod]
    rw [alookup_aset_self]
    simp only []
    rw [aset_aset]
    rw [walk_and_decrypt]
    simp only []
    rw [show (if false = true then (none : Option String) else some "") = some "" from rfl]
    rw [walkDecF_aset_sops]
    rw [rtF D key "" (some "") (some "") ivs g ver true hver hef' ""]
    simp only [Except.map, Option.map_some']
    rw [alookup_aset_self]
    simp only []
    rw [alookup_aset_ne _ "mac" "lastmodified" _ (by decide), alookup_aset_self]
    simp only []
    rw [alookup_aset_self]
    simp only []
    rw [if_neg (show ¬ (false = true) by decide)]
    obtain ⟨ivm, hm⟩ := encryptLeaf_shape
      (.str (hexdigestUpper ("" ++ leafBytesRoot D))) key now none none ivs
      (walkEncFields D key "" none (some "") true ivs g).2.2
    rw [hm]
    rw [decryptLeaf_wrong_aad _ _ _ _ _ _ _ _ _ (fun h => hlm h.symm)]

/-- Closed instance of the amended tampered-lastmodified claim at `D0`. -/
theorem C9_tampered_lastmodified_witness :
    ∃ encD dg g2,
      walk_and_encrypt D0 7 "" none "NOW" ivsA 0 = .ok (encD, dg, g2) ∧
      walk_and_decrypt (setLastmod encD "TAMPERED") 7 "" none 9 false
        = .error .authenticationFailed :=
  C9_tampered_lastmodified D0 7 "NOW" ivsA 0 9 [("version", .float "0.9")] "TAMPERED"
    (by omega) (by rfl) (by decide) (by decide)

/-! ### Claim C10: pgp unwrap -/

theorem pgp_list_first32 (gpgDec : String → Option (List Nat)) (l : List PgpEntry) :
    get_key_from_pgp_list gpgDec l = pgpFirst32 gpgDec l := by
  induction l with
  | nil => rfl
  | cons e rest ih =>
    rw [get_key_from_pgp_list, pgpFirst32, List.filterMap_cons]
    cases he : e.enc with
    | none => simp [he, ih, pgpFirst32]
    | some enc =>
      cases hg : gpgDec enc with
      | none => simp [he, hg, ih, pgpFirst32]
      | some key =>
        by_cases hlen : key.length = 32
        · simp [he, hg, hlen]
        · simp [he, hg, hlen, ih, pgpFirst32]

/-- Claim C10: `get_key_from_pgp` accepts a candidate exactly when the gpg
output is 32 bytes long, skipping entries without `enc`, entries whose
subprocess raises and entries with any other output length; it returns the
first accepted key, and `none` when no entry yields one (including when
there is no `sops.pgp` list). -/
theorem C10_pgp_unwrap (gpgDec : String → Option (List Nat)) :
    (∀ l, get_key_from_pgp gpgDec (some l) = pgpFirst32 gpgDec l) ∧
    get_key_from_pgp gpgDec none = none := by
  exact ⟨fun l => pgp_list_first32 gpgDec l, rfl⟩

/-! ### Claim C8: master-key wrapping outcomes -/

/-- Claim C8, amended: `update_master_keys` leaves a recipient that already
holds a wrapped key unchanged; for a recipient needing a wrap, a missing
or empty ARN or a failed session leaves the entry unchanged with its `enc`
still empty, a raised KMS encrypt call replaces the entry by a Python-None
slot (erasing the recipient), and only a successful call stores the blob
and `created_at`.  The claimed invariant (non-empty identifier implies
non-empty `enc`) therefore holds only when session and wrap succeed with a
non-empty blob for every entry needing a wrap. -/
theorem C8_wrap_outcomes (session : KmsEntry → Bool) (wrap : KmsEntry → Option String)
    (gpgWrap : PgpEntry → Option String) (now : String) (m : SopsMeta)
    (l : List KmsEntry) (hl : m.kms = some l) :
    ∃ l', (update_master_keys session wrap gpgWrap now m).kms = some l' ∧
      l'.length = l.length ∧
      (∀ i e, l.get? i = some e →
        ((needsEnc e.enc = false → l'.get? i = some (some e)) ∧
         (needsEnc e.enc = true → e.arn.getD "" = "" → l'.get? i = some (some e)) ∧
         (needsEnc e.enc = true → e.arn.getD "" ≠ "" → session e = false →
            l'.get? i = some (some e)) ∧
         (needsEnc e.enc = true → e.arn.getD "" ≠ "" → session e = true → wrap e = none →
            l'.get? i = some none) ∧
         (∀ blob, needsEnc e.enc = true → e.arn.getD "" ≠ "" → session e = true →
            wrap e = some blob →
            l'.get? i = some (some ⟨e.arn, e.role, some blob, some now⟩)))) ∧
      ((∀ e ∈ l, needsEnc e.enc = true →
          e.arn.getD "" ≠ "" ∧ session e = true ∧ ∃ blob, wrap e = some blob ∧ blob ≠ "") →
        ∀ oe ∈ l', ∃ e', oe = some e' ∧ needsEnc e'.enc = false) := by
  refine ⟨update_kms_list session wrap now l, ?_, ?_, ?_, ?_⟩
  · rw [update_master_keys]
    simp only [hl, Option.map_some']
  · simp [update_kms_list]
  · intro i e hi
    have hmap : (update_kms_list session wrap now l).get? i
        = some (if needsEnc e.enc then encrypt_key_with_kms session wrap e now else some e) := by
      rw [update_kms_list, List.get?_map, hi, Option.map_some']
    refine ⟨?_, ?_, ?_, ?_, ?_⟩
    · intro hne
      rw [hmap, hne]
      simp
    · intro hne harn
      rw [hmap, hne, encrypt_key_with_kms, if_pos harn]
      simp
    · intro hne harn hses
      rw [hmap, hne, encrypt_key_with_kms, if_neg harn]
      simp [hses]
    · intro hne harn hses hw
      rw [hmap, hne, encrypt_key_with_kms, if_neg harn]
      simp [hses, hw]
    · intro blob hne harn hses hw
      rw [hmap, hne, encrypt_key_with_kms, if_neg harn]
      simp [hses, hw]
  · intro hall oe hoe
    rw [update_kms_list, List.mem_map] at hoe
    obtain ⟨e, he, rfl⟩ := hoe
    by_cases hne : needsEnc e.enc = true
    · obtain ⟨harn, hses, blob, hw, hblob⟩ := hall e he hne
      rw [if_pos hne, encrypt_key_with_kms, if_neg harn]
      refine ⟨⟨e.arn, e.role, some blob, some now⟩, by simp [hses, hw], by simp [needsEnc, hblob]⟩
    · rw [if_neg hne]
      exact ⟨e, rfl, by simpa using hne⟩

/-- Closed instance of the amended wrapping claim at the metadata `m0`
(one recipient, successful oracles). -/
theorem C8_wrap_outcomes_witness :
    ∃ l', (update_master_keys sessionT wrapOkK gpgWrapFail "NOW" m0).kms = some l' ∧
      l'.length = [kmsE0].length ∧
      (∀ i e, [kmsE0].get? i = some e →
        ((needsEnc e.enc = false → l'.get? i = some (some e)) ∧
         (needsEnc e.enc = true → e.arn.getD "" = "" → l'.get? i = some (some e)) ∧
         (needsEnc e.enc = true → e.arn.getD "" ≠ "" → sessionT e = false →
            l'.get? i = some (some e)) ∧
         (needsEnc e.enc = true → e.arn.getD "" ≠ "" → sessionT e = true →
            wrapOkK e = none → l'.get? i = some none) ∧
         (∀ blob, needsEnc e.enc = true → e.arn.getD "" ≠ "" → sessionT e = true →
            wrapOkK e = some blob →
            l'.get? i = some (some ⟨e.arn, e.role, some blob, some "NOW"⟩)))) ∧
      ((∀ e ∈ [kmsE0], needsEnc e.enc = true →
          e.arn.getD "" ≠ "" ∧ sessionT e = true ∧
            ∃ blob, wrapOkK e = some blob ∧ blob ≠ "") →
        ∀ oe ∈ l', ∃ e', oe = some e' ∧ needsEnc e'.enc = false) :=
  C8_wrap_outcomes sessionT wrapOkK gpgWrapFail "NOW" m0 [kmsE0] (by rfl)

/-- Claim C8, as stated, is false: with a KMS encrypt call that raises, the
single recipient entry of `m0` — whose ARN is non-empty — is replaced by a
Python-None slot rather than being kept with an empty `enc`. -/
theorem C8_counterexample :
    (update_master_keys sessionT wrapFailK gpgWrapFail "NOW" m0).kms = some [none] ∧
    kmsE0.arn.getD "" ≠ "" := by
  constructor
  · rfl
  · decide

/-! ### Entropy-counter monotonicity of the encrypt walk -/

theorem gMonoLeaf (v : Node) (key : Nat) (aad : String) (st : Option Stash)
    (dg : Option String) (ivs : Nat → Nat) (g : Nat) :
    g ≤ (encryptLeaf v key aad st dg ivs g).2.2 := by
  simp only [encryptLeaf]
  rcases st with _ | st
  · simp
  · simp only []
    rcases hd : st.dataF with _ | sl
    · simp [hd]
    · simp only []
      by_cases h : sl.cleartext = encodeClear v <;> simp [h]

mutual
theorem gMonoN (v : Node) (key : Nat) (aad : String) (st : Option Stash)
    (dg : Option String) (ivs : Nat → Nat) (g : Nat) :
    g ≤ (walkEncNode v key aad st dg ivs g).2.2 := by
  cases v with
  | map fs => exact gMonoF fs key aad st dg false ivs g
  | arr xs => exact gMonoI xs key aad st none dg ivs g 0
  | str s => exact gMonoLeaf _ key aad st dg ivs g
  | int n => exact gMonoLeaf _ key aad st dg ivs g
  | float r => exact gMonoLeaf _ key aad st dg ivs g
  | bool b => exact gMonoLeaf _ key aad st dg ivs g
  | bytes b => exact gMonoLeaf _ key aad st dg ivs g
  | enc e => exact gMonoLeaf _ key aad st dg ivs g

theorem gMonoF (fields : List (String × Node)) (key : Nat) (aad : String)
    (st : Option Stash) (dg : Option String) (b : Bool) (ivs : Nat → Nat) (g : Nat) :
    g ≤ (walkEncFields fields key aad st dg b ivs g).2.2 := by
  cases fields with
  | nil => simp [walkEncFields]
  | cons hd rest =>
    obtain ⟨k, v⟩ := hd
    rw [walkEncFields]
    split
    · exact gMonoF rest key aad st dg b ivs g
    · simp only []
      have h1 := gMonoN v key (aad ++ k ++ ":") (st.bind (fun s => alookup s.skids k)) dg ivs g
      have h2 := gMonoF rest key aad st
        (walkEncNode v key (aad ++ k ++ ":") (st.bind (fun s => alookup s.skids k)) dg ivs g).2.1
        b ivs
        (walkEncNode v key (aad ++ k ++ ":") (st.bind (fun s => alookup s.skids k)) dg ivs g).2.2
      omega

theorem gMonoI (items : List Node) (key : Nat) (aad : String)
    (st ns : Option Stash) (dg : Option String) (ivs : Nat → Nat) (g : Nat) (i : Nat) :
    g ≤ (walkEncItems items key aad st ns dg ivs g i).2.2 := by
  cases items with
  | nil => simp [walkEncItems]
  | cons v rest =>
    rw [walkEncItems]
    simp only []
    have h1 := gMonoN v key aad
      (match st.bind (fun s => ilookup s.ikids i) with
       | some c => some c
       | none => ns) dg ivs g
    have h2 := gMonoI rest key aad st
      (match st.bind (fun s => ilookup s.ikids i) with
       | some c => some c
       | none => ns)
      (walkEncNode v key aad
        (match st.bind (fun s => ilookup s.ikids i) with
         | some c => some c
         | none => ns) dg ivs g).2.1 ivs
      (walkEncNode v key aad
        (match st.bind (fun s => ilookup s.ikids i) with
         | some c => some c
         | none => ns) dg ivs g).2.2 (i + 1)
    omega
end

/-! ### Envelope characterization for a single leaf -/

theorem peLeaf (v : Node) (key : Nat) (aad : String) (stash : Option Stash)
    (dg : Option String) (ivs : Nat → Nat) (g : Nat) (e : Envelope)
    (hE : (encryptLeaf v key aad stash dg ivs g).1 = .enc e) :
    e.data = encodeClear v ∧ e.valtype = valtypeOf v ∧ e.tagKey = key ∧
    e.tagIv = e.iv ∧ e.tagAad = aad ∧ e.tagCt = e.data ∧
    (∀ iv0, stashIvHit stash (encodeClear v) = some iv0 → e.iv = iv0) ∧
    (stashIvHit stash (encodeClear v) = none →
      e.iv = ivs g ∧ (encryptLeaf v key aad stash dg ivs g).2.2 = g + 1) := by
  simp only [encryptLeaf] at hE
  injection hE with hE2
  subst hE2
  refine ⟨rfl, rfl, rfl, rfl, rfl, rfl, ?_, ?_⟩
  · intro iv0 hhit
    simp only [mkEnv]
    rcases stash with _ | st
    · simp [stashIvHit] at hhit
    · simp only [stashIvHit] at hhit
      simp only []
      rcases hd : st.dataF with _ | sl
      · rw [hd] at hhit
        simp at hhit
      · rw [hd] at hhit
        simp only [] at hhit ⊢
        by_cases hc : sl.cleartext = encodeClear v
        · simp [hc] at hhit ⊢
          exact hhit
        · simp [hc] at hhit
  · intro hnone
    simp only [mkEnv, encryptLeaf]
    rcases stash with _ | st
    · simp
    · simp only [stashIvHit] at hnone
      simp only []
      rcases hd : st.dataF with _ | sl
      · simp
      · rw [hd] at hnone
        simp only [] at hnone ⊢
        by_cases hc : sl.cleartext = encodeClear v
        · simp [hc] at hnone
        · simp [hc]

theorem peLeafPath (v : Node) (key : Nat) (aad : String) (stash : Option Stash)
    (dg : Option String) (ivs : Nat → Nat) (g : Nat) (p : List PathC) (e : Envelope)
    (hget : getAt (encryptLeaf v key aad stash dg ivs g).1 p = some (.enc e)) :
    ∃ v0, getAt v p = some v0 ∧
      e.data = encodeClear v0 ∧ e.valtype = valtypeOf v0 ∧ e.tagKey = key ∧
      e.tagIv = e.iv ∧ e.tagAad = aadOfPath aad p ∧ e.tagCt = e.data ∧
      (∀ iv0, stashIvHit (stashAtE stash p) (encodeClear v0) = some iv0 → e.iv = iv0) ∧
      (stashIvHit (stashAtE stash p) (encodeClear v0) = none →
        ∃ j, g ≤ j ∧ j < (encryptLeaf v key aad stash dg ivs g).2.2 ∧ e.iv = ivs j) := by
  cases p with
  | nil =>
    rw [getAt] at hget
    injection hget with hE
    obtain ⟨h1, h2, h3, h4, h5, h6, h7, h8⟩ := peLeaf v key aad stash dg ivs g e hE
    refine ⟨v, by rw [getAt], h1, h2, h3, h4, h5, h6, h7, ?_⟩
    intro hn
    exact ⟨g, le_refl g, by rw [(h8 hn).2]; omega, (h8 hn).1⟩
  | cons c p' =>
    obtain ⟨iv, hE⟩ := encryptLeaf_shape v key aad stash dg ivs g
    rw [hE] at hget
    cases c <;> simp [getAt] at hget

/-! ### Path characterization of the encrypt walk -/

mutual
theorem peN (v : Node) (key : Nat) (aad : String) (stash : Option Stash)
    (dg : Option String) (ivs : Nat → Nat) (g : Nat) (p : List PathC) (e : Envelope)
    (hget : getAt (walkEncNode v key aad stash dg ivs g).1 p = some (.enc e)) :
    ∃ v0, getAt v p = some v0 ∧
      e.data = encodeClear v0 ∧ e.valtype = valtypeOf v0 ∧ e.tagKey = key ∧
      e.tagIv = e.iv ∧ e.tagAad = aadOfPath aad p ∧ e.tagCt = e.data ∧
      (∀ iv0, stashIvHit (stashAtE stash p) (encodeClear v0) = some iv0 → e.iv = iv0) ∧
      (stashIvHit (stashAtE stash p) (encodeClear v0) = none →
        ∃ j, g ≤ j ∧ j < (walkEncNode v key aad stash dg ivs g).2.2 ∧ e.iv = ivs j) := by
  cases v with
  | map fs =>
    simp only [walkEncNode] at hget ⊢
    cases p with
    | nil => simp [getAt] at hget
    | cons c p' =>
      cases c with
      | key k =>
        exact peF fs key aad stash dg false ivs g (.key k :: p') e hget (by simp [headNotSops])
      | idx i => simp [getAt] at hget
  | arr xs =>
    simp only [walkEncNode] at hget ⊢
    cases p with
    | nil => simp [getAt] at hget
    | cons c p' =>
      cases c with
      | key k => simp [getAt] at hget
      | idx j =>
        have h := peI xs key aad stash none dg ivs g 0 j p' e hget
        simpa only [stashAtE] using h
  | str s =>
    simp only [walkEncNode] at hget ⊢
    exact peLeafPath _ key aad stash dg ivs g p e hget
  | int n =>
    simp only [walkEncNode] at hget ⊢
    exact peLeafPath _ key aad stash dg ivs g p e hget
  | float r =>
    simp only [walkEncNode] at hget ⊢
    exact peLeafPath _ key aad stash dg ivs g p e hget
  | bool b =>
    simp only [walkEncNode] at hget ⊢
    exact peLeafPath _ key aad stash dg ivs g p e hget
  | bytes b =>
    simp only [walkEncNode] at hget ⊢
    exact peLeafPath _ key aad stash dg ivs g p e hget
  | enc e0 =>
    simp only [walkEncNode] at hget ⊢
    exact peLeafPath _ key aad stash dg ivs g p e hget

theorem peF (fields : List (String × Node)) (key : Nat) (aad : String)
    (stash : Option Stash) (dg : Option String) (b : Bool) (ivs : Nat → Nat) (g : Nat)
    (p : List PathC) (e : Envelope)
    (hget : getAt (.map (walkEncFields fields key aad stash dg b ivs g).1) p = some (.enc e))
    (hns : headNotSops b p) :
    ∃ v0, getAt (.map fields) p = some v0 ∧
      e.data = encodeClear v0 ∧ e.valtype = valtypeOf v0 ∧ e.tagKey = key ∧
      e.tagIv = e.iv ∧ e.tagAad = aadOfPath aad p ∧ e.tagCt = e.data ∧
      (∀ iv0, stashIvHit (stashAtE stash p) (encodeClear v0) = some iv0 → e.iv = iv0) ∧
      (stashIvHit (stashAtE stash p) (encodeClear v0) = none →
        ∃ j, g ≤ j ∧ j < (walkEncFields fields key aad stash dg b ivs g).2.2 ∧ e.iv = ivs j) := by
  cases fields with
  | nil =>
    cases p with
    | nil => simp [walkEncFields, getAt] at hget
    | cons c p' => cases c <;> simp [walkEncFields, getAt, alookup] at hget
  | cons hd rest =>
    obtain ⟨k, v⟩ := hd
    by_cases hks : (b = true ∧ k = "sops")
    · rw [walkEncFields, if_pos hks] at hget ⊢
      simp only [] at hget ⊢
      cases p with
      | nil => simp [getAt] at hget
      | cons c p' =>
        cases c with
        | key k2 =>
          rw [getAt, alookup] at hget
          by_cases hkk : k = k2
          · exact absurd (hkk ▸ hks.2) (hns hks.1)
          · rw [if_neg hkk] at hget
            obtain ⟨v0, h1, h2, h3, h4, h5, h6, h7, h8, h9⟩ :=
              peF rest key aad stash dg b ivs g (.key k2 :: p') e
                (by rw [getAt]; exact hget) hns
            refine ⟨v0, ?_, h2, h3, h4, h5, h6, h7, h8, h9⟩
            rw [getAt, alookup, if_neg hkk]
            rw [getAt] at h1
            exact h1
        | idx i => simp [getAt] at hget
    · rw [walkEncFields, if_neg hks] at hget ⊢
      simp only [] at hget ⊢
      cases p with
      | nil => simp [getAt] at hget
      | cons c p' =>
        cases c with
        | key k2 =>
          rw [getAt, alookup] at hget
          by_cases hkk : k = k2
          · subst hkk
            rw [if_pos rfl] at hget
            simp only [] at hget
            obtain ⟨v0, h1, h2, h3, h4, h5, h6, h7, h8, h9⟩ :=
              peN v key (aad ++ k ++ ":") (stash.bind fun st => alookup st.skids k)
                dg ivs g p' e hget
            refine ⟨v0, ?_, h2, h3, h4, h5, h6, h7, h8, ?_⟩
            · rw [getAt, alookup, if_pos rfl]
              exact h1
            · intro hn
              obtain ⟨j, hj1, hj2, hj3⟩ := h9 hn
              refine ⟨j, hj1, ?_, hj3⟩
              calc j < (walkEncNode v key (aad ++ k ++ ":")
                    (stash.bind fun st => alookup st.skids k) dg ivs g).2.2 := hj2
                _ ≤ _ := gMonoF rest key aad stash
                    (walkEncNode v key (aad ++ k ++ ":")
                      (stash.bind fun st => alookup st.skids k) dg ivs g).2.1 b ivs
                    (walkEncNode v key (aad ++ k ++ ":")
                      (stash.bind fun st => alookup st.skids k) dg ivs g).2.2
          · rw [if_neg hkk] at hget
            obtain ⟨v0, h1, h2, h3, h4, h5, h6, h7, h8, h9⟩ :=
              peF rest key aad stash
                (walkEncNode v key (aad ++ k ++ ":")
                  (stash.bind fun st => alookup st.skids k) dg ivs g).2.1 b ivs
                (walkEncNode v key (aad ++ k ++ ":")
                  (stash.bind fun st => alookup st.skids k) dg ivs g).2.2
                (.key k2 :: p') e (by rw [getAt]; exact hget) hns
            refine ⟨v0, ?_, h2, h3, h4, h5, h6, h7, h8, ?_⟩
            · rw [getAt, alookup, if_neg hkk]
              rw [getAt] at h1
              exact h1
            · intro hn
              obtain ⟨j, hj1, hj2, hj3⟩ := h9 hn
              refine ⟨j, ?_, hj2, hj3⟩
              calc g ≤ (walkEncNode v key (aad ++ k ++ ":")
                    (stash.bind fun st => alookup st.skids k) dg ivs g).2.2 :=
                  gMonoN v key (aad ++ k ++ ":")
                    (stash.bind fun st => alookup st.skids k) dg ivs g
                _ ≤ j := hj1
        | idx i => simp [getAt] at hget

theorem peI (items : List Node) (key : Nat) (aad : String)
    (stash ns : Option Stash) (dg : Option String) (ivs : Nat → Nat) (g : Nat) (i : Nat)
    (j : Nat) (p' : List PathC) (e : Envelope)
    (hget : getAt (.arr (walkEncItems items key aad stash ns dg ivs g i).1) (.idx j :: p')
      = some (.enc e)) :
    ∃ v0, getAt (.arr items) (.idx j :: p') = some v0 ∧
      e.data = encodeClear v0 ∧ e.valtype = valtypeOf v0 ∧ e.tagKey = key ∧
      e.tagIv = e.iv ∧ e.tagAad = aadOfPath aad p' ∧ e.tagCt = e.data ∧
      (∀ iv0, stashIvHit (stashAtE (lcar stash ns i j) p')
          (encodeClear v0) = some iv0 → e.iv = iv0) ∧
      (stashIvHit (stashAtE (lcar stash ns i j) p')
          (encodeClear v0) = none →
        ∃ j2, g ≤ j2 ∧ j2 < (walkEncItems items key aad stash ns dg ivs g i).2.2 ∧
          e.iv = ivs j2) := by
  cases items with
  | nil => simp [walkEncItems, getAt] at hget
  | cons v rest =>
    rw [walkEncItems] at hget ⊢
    simp only [] at hget ⊢
    cases j with
    | zero =>
      rw [lcar]
      rw [getAt] at hget
      simp only [List.get?] at hget
      obtain ⟨v0, h1, h2, h3, h4, h5, h6, h7, h8, h9⟩ :=
        peN v key aad
          (match stash.bind (fun st => ilookup st.ikids i) with
           | some c => some c
           | none => ns) dg ivs g p' e hget
      refine ⟨v0, ?_, h2, h3, h4, h5, h6, h7, ?_, ?_⟩
      · rw [getAt]
        simp only [List.get?]
        exact h1
      · exact h8
      · intro hn
        obtain ⟨j3, hj1, hj2, hj3⟩ := h9 hn
        refine ⟨j3, hj1, ?_, hj3⟩
        calc j3 < (walkEncNode v key aad
              (match stash.bind (fun st => ilookup st.ikids i) with
               | some c => some c
               | none => ns) dg ivs g).2.2 := hj2
          _ ≤ _ := gMonoI rest key aad stash
              (match stash.bind (fun st => ilookup st.ikids i) with
               | some c => some c
               | none => ns)
              (walkEncNode v key aad
                (match stash.bind (fun st => ilookup st.ikids i) with
                 | some c => some c
                 | none => ns) dg ivs g).2.1 ivs
              (walkEncNode v key aad
                (match stash.bind (fun st => ilookup st.ikids i) with
                 | some c => some c
                 | none => ns) dg ivs g).2.2 (i + 1)
    | succ j2 =>
      rw [lcar]
      rw [getAt] at hget
      simp only [List.get?] at hget
      obtain ⟨v0, h1, h2, h3, h4, h5, h6, h7, h8, h9⟩ :=
        peI rest key aad stash
          (match stash.bind (fun st => ilookup st.ikids i) with
           | some c => some c
           | none => ns)
          (walkEncNode v key aad
            (match stash.bind (fun st => ilookup st.ikids i) with
             | some c => some c
             | none => ns) dg ivs g).2.1
          ivs
          (walkEncNode v key aad
            (match stash.bind (fun st => ilookup st.ikids i) with
             | some c => some c
             | none => ns) dg ivs g).2.2
          (i + 1) j2 p' e (by rw [getAt]; exact hget)
      refine ⟨v0, ?_, h2, h3, h4, h5, h6, h7, ?_, ?_⟩
      · rw [getAt]
        simp only [List.get?]
        rw [getAt] at h1
        exact h1
      · exact h8
      · intro hn
        obtain ⟨j3, hj1, hj2, hj3⟩ := h9 hn
        refine ⟨j3, ?_, hj2, hj3⟩
        calc g ≤ (walkEncNode v key aad
              (match stash.bind (fun st => ilookup st.ikids i) with
               | some c => some c
               | none => ns) dg ivs g).2.2 :=
            gMonoN v key aad
              (match stash.bind (fun st => ilookup st.ikids i) with
               | some c => some c
               | none => ns) dg ivs g
          _ ≤ j3 := hj1
end

/-- Claim C2: in the output of a (version 0.9) `walk_and_encrypt` from an
empty AAD base, every envelope reached through mapping keys k1,...,kn —
with list indices interleaved anywhere, each contributing no bytes — has
AAD exactly k1 ++ ":" ++ ... ++ kn ++ ":" (`aadOfPath ""`), and was
encrypted with the data key.  Since `aadOfPath` ignores list indices,
every element of a list inherits the parent mapping entry's AAD verbatim
and sibling list elements share the same AAD. -/
theorem C2_aad_path
    (D : List (String × Node)) (key : Nat) (stash : Option Stash) (now : String)
    (ivs : Nat → Nat) (g : Nat) (encD : List (String × Node)) (dg : String) (g2 : Nat)
    (p : List PathC) (e : Envelope)
    (henc : walk_and_encrypt D key "" stash now ivs g = .ok (encD, dg, g2))
    (hns : headNotSops true p)
    (hget : getAt (.map encD) p = some (.enc e)) :
    e.tagAad = aadOfPath "" p ∧ e.tagKey = key := by
  rw [walk_and_encrypt] at henc
  simp only [] at henc
  rcases halo : alookup (walkEncFields D key "" stash (some "") true ivs g).1 "sops"
    with _ | sv
  · rw [halo] at henc
    exact absurd henc (by simp)
  · rw [halo] at henc
    cases sv with
    | map sm =>
      simp only [Except.ok.injEq, Prod.mk.injEq] at henc
      obtain ⟨h1, h2, h3⟩ := henc
      subst h1
      cases p with
      | nil => simp [getAt] at hget
      | cons c p' =>
        cases c with
        | key k =>
          have hk : k ≠ "sops" := hns rfl
          rw [getAt, alookup_aset_ne _ _ _ _ (fun h => hk h.symm)] at hget
          obtain ⟨v0, h1, h2', h3', h4, h5, h6, h7, h8, h9⟩ :=
            peF D key "" stash (some "") true ivs g (.key k :: p') e
              (by rw [getAt]; exact hget) hns
          exact ⟨h6, h4⟩
        | idx i => simp [getAt] at hget
    | str s => exact absurd henc (by simp)
    | int n => exact absurd henc (by simp)
    | float r => exact absurd henc (by simp)
    | bool b => exact absurd henc (by simp)
    | bytes b => exact absurd henc (by simp)
    | enc e0 => exact absurd henc (by simp)
    | arr xs => exact absurd henc (by simp)

/-- Closed instance of the AAD claim: in the encryption of `D0`, the leaf
at path b.n carries AAD "b:n:", and the two sibling list elements of c
share the AAD "c:". -/
theorem C2_aad_path_witness :
    ((mkEnv "42" 7 1001 "b:n:" "int").tagAad = aadOfPath "" [.key "b", .key "n"] ∧
      (mkEnv "42" 7 1001 "b:n:" "int").tagKey = 7) ∧
    ((mkEnv "two" 7 1006 "c:" "str").tagAad = aadOfPath "" [.key "c", .idx 1] ∧
      (mkEnv "two" 7 1006 "c:" "str").tagKey = 7) :=
  ⟨C2_aad_path D0 7 none "NOW" ivsA 0 encD0 dgD0 9 [.key "b", .key "n"]
      (mkEnv "42" 7 1001 "b:n:" "int")
      (by simp [walk_and_encrypt, walkEncFields, walkEncNode, walkEncItems, encryptLeaf,
        encodeClear, valtypeOf, mkEnv, intStr, natStr, natDigits, ivsA, D0, alookup, aset,
        hexdigestUpper, shaBytes, byteHex, hexChar, String.join, encD0, dgD0, macD0])
      (by simp [headNotSops]) (by decide),
   C2_aad_path D0 7 none "NOW" ivsA 0 encD0 dgD0 9 [.key "c", .idx 1]
      (mkEnv "two" 7 1006 "c:" "str")
      (by simp [walk_and_encrypt, walkEncFields, walkEncNode, walkEncItems, encryptLeaf,
        encodeClear, valtypeOf, mkEnv, intStr, natStr, natDigits, ivsA, D0, alookup, aset,
        hexdigestUpper, shaBytes, byteHex, hexChar, String.join, encD0, dgD0, macD0])
      (by simp [headNotSops]) (by decide)⟩

/-! ### Stash characterization of the decrypt walk -/

theorem stashAt_none (p : List PathC) : stashAt none p = none := by
  induction p with
  | nil => rfl
  | cons c p ih => cases c <;> · rw [stashAt]; simpa using ih

theorem headNotSops_false (p : List PathC) : headNotSops false p := by
  cases p with
  | nil => simp [headNotSops]
  | cons c p' => cases c <;> simp [headNotSops]

theorem alookup_eq_none_of_not_mem {α : Type} (l : List (String × α)) (k : String)
    (h : k ∉ l.map Prod.fst) : alookup l k = none := by
  induction l with
  | nil => rfl
  | cons hd rest ih =>
    obtain ⟨k0, v0⟩ := hd
    simp only [List.map_cons, List.mem_cons] at h
    push_neg at h
    rw [alookup, if_neg (fun he => h.1 he.symm)]
    exact ih h.2

theorem encryptLeaf_g_none (v : Node) (key : Nat) (aad : String) (dg : Option String)
    (ivs : Nat → Nat) (g : Nat) :
    (encryptLeaf v key aad none dg ivs g).2.2 = g + 1 := rfl

theorem frameF (fields : List (String × Node)) (key : Nat) (aad : String)
    (st : Stash) (dg : Option String) (b : Bool) (ver : Nat) (carry : String)
    (r : List (String × Node) × Option Stash × Option String × String)
    (hdec : walkDecFields fields key aad (some st) dg b ver carry = .ok r) :
    ∃ stF, r.2.1 = some stF ∧ stF.dataF = st.dataF ∧ stF.ikids = st.ikids ∧
      ∀ k, alookup fields k = none → alookup stF.skids k = alookup st.skids k := by
  cases fields with
  | nil =>
    rw [walkDecFields] at hdec
    injection hdec with h
    subst h
    exact ⟨st, rfl, rfl, rfl, fun _ _ => rfl⟩
  | cons hd rest =>
    obtain ⟨k0, v0⟩ := hd
    by_cases hks : (b = true ∧ k0 = "sops")
    · rw [walkDecFields, if_pos hks] at hdec
      cases hr : walkDecFields rest key aad (some st) dg b ver carry with
      | error err => rw [hr] at hdec; exact absurd hdec (by simp)
      | ok rr =>
        rw [hr] at hdec
        simp only [] at hdec
        injection hdec with h
        subst h
        obtain ⟨stF, h1, h2, h3, h4⟩ := frameF rest key aad st dg b ver carry rr hr
        refine ⟨stF, h1, h2, h3, fun k hk => ?_⟩
        apply h4
        rw [alookup] at hk
        by_cases hke : k0 = k
        · rw [if_pos hke] at hk; exact absurd hk (by simp)
        · rw [if_neg hke] at hk; exact hk
    · rw [walkDecFields, if_neg hks] at hdec
      simp only [Option.map] at hdec
      cases hn : walkDecNode v0 key (if 9 ≤ ver then aad ++ k0 ++ ":" else carry ++ k0)
          (some Stash.fresh) dg ver with
      | error err => rw [hn] at hdec; exact absurd hdec (by simp)
      | ok trip =>
        obtain ⟨v', child', dg'⟩ := trip
        rw [hn] at hdec
        simp only [] at hdec
        cases child' with
        | none =>
          cases hr : walkDecFields rest key aad (some st) dg' b ver
              (if 9 ≤ ver then carry else if 9 ≤ ver then aad ++ k0 ++ ":" else carry ++ k0) with
          | error err => rw [hr] at hdec; exact absurd hdec (by simp)
          | ok rr =>
            rw [hr] at hdec
            simp only [] at hdec
            injection hdec with h
            subst h
            obtain ⟨stF, h1, h2, h3, h4⟩ := frameF rest key aad st dg' b ver _ rr hr
            refine ⟨stF, h1, h2, h3, fun k hk => ?_⟩
            apply h4
            rw [alookup] at hk
            by_cases hke : k0 = k
            · rw [if_pos hke] at hk; exact absurd hk (by simp)
            · rw [if_neg hke] at hk; exact hk
        | some c =>
          cases hr : walkDecFields rest key aad
              (some (Stash.mk st.dataF (aset st.skids k0 c) st.ikids)) dg' b ver
              (if 9 ≤ ver then carry else if 9 ≤ ver then aad ++ k0 ++ ":" else carry ++ k0) with
          | error err => rw [hr] at hdec; exact absurd hdec (by simp)
          | ok rr =>
            rw [hr] at hdec
            simp only [] at hdec
            injection hdec with h
            subst h
            obtain ⟨stF, h1, h2, h3, h4⟩ := frameF rest key aad
              (Stash.mk st.dataF (aset st.skids k0 c) st.ikids) dg' b ver _ rr hr
            refine ⟨stF, h1, h2, h3, fun k hk => ?_⟩
            rw [alookup] at hk
            by_cases hke : k0 = k
            · rw [if_pos hke] at hk; exact absurd hk (by simp)
            · rw [if_neg hke] at hk
              rw [h4 k hk]
              exact alookup_aset_ne st.skids k k0 c hke

theorem frameI (items : List Node) (key : Nat) (aad : String) (st : Stash)
    (dg : Option String) (ver : Nat) (i : Nat)
    (r : List Node × Option Stash × Option String)
    (hdec : walkDecItems items key aad (some st) dg ver i = .ok r) :
    ∃ stF, r.2.1 = some stF ∧ stF.dataF = st.dataF ∧ stF.skids = st.skids ∧
      ∀ j, j < i → ilookup stF.ikids j = ilookup st.ikids j := by
  cases items with
  | nil =>
    rw [walkDecItems] at hdec
    injection hdec with h
    subst h
    exact ⟨st, rfl, rfl, rfl, fun _ _ => rfl⟩
  | cons v rest =>
    rw [walkDecItems] at hdec
    simp only [Option.map] at hdec
    cases hn : walkDecNode v key aad (some Stash.fresh) dg ver with
    | error err => rw [hn] at hdec; exact absurd hdec (by simp)
    | ok trip =>
      obtain ⟨v', child', dg'⟩ := trip
      rw [hn] at hdec
      simp only [] at hdec
      cases child' with
      | none =>
        cases hr : walkDecItems rest key aad (some st) dg' ver (i + 1) with
        | error err => rw [hr] at hdec; exact absurd hdec (by simp)
        | ok rr =>
          rw [hr] at hdec
          simp only [] at hdec
          injection hdec with h
          subst h
          obtain ⟨stF, h1, h2, h3, h4⟩ := frameI rest key aad st dg' ver (i + 1) rr hr
          exact ⟨stF, h1, h2, h3, fun j hj => h4 j (by omega)⟩
      | some c =>
        cases hr : walkDecItems rest key aad
            (some (Stash.mk st.dataF st.skids (iset st.ikids i c))) dg' ver (i + 1) with
        | error err => rw [hr] at hdec; exact absurd hdec (by simp)
        | ok rr =>
          rw [hr] at hdec
          simp only [] at hdec
          injection hdec with h
          subst h
          obtain ⟨stF, h1, h2, h3, h4⟩ := frameI rest key aad
            (Stash.mk st.dataF st.skids (iset st.ikids i c)) dg' ver (i + 1) rr hr
          refine ⟨stF, h1, h2, h3, fun j hj => ?_⟩
          rw [h4 j (by omega)]
          exact ilookup_iset_ne st.ikids j i c (by omega)

theorem wd_stash (branch : List (String × Node)) (key : Nat) (aad : String)
    (stash : Option Stash) (ver : Nat) (im : Bool)
    (decD : List (String × Node)) (st2 : Option Stash)
    (hdec : walk_and_decrypt branch key aad stash ver im = .ok (decD, st2)) :
    ∃ r, walkDecFields branch key aad stash (if im then none else some "") true ver aad
        = .ok r ∧ st2 = r.2.1 := by
  rw [walk_and_decrypt] at hdec
  simp only [] at hdec
  cases hr : walkDecFields branch key aad stash (if im then none else some "") true ver aad with
  | error err => rw [hr] at hdec; exact absurd hdec (by simp)
  | ok r =>
    rw [hr] at hdec
    simp only [] at hdec
    refine ⟨r, rfl, ?_⟩
    by_cases him : im = true
    · rw [if_pos him] at hdec
      simp only [Except.ok.injEq, Prod.mk.injEq] at hdec
      exact hdec.2.symm
    · rw [if_neg him] at hdec
      rcases hs : alookup r.1 "sops" with _ | sv
      · rw [hs] at hdec; exact absurd hdec (by simp)
      · rw [hs] at hdec
        cases sv with
        | map sm =>
          simp only [] at hdec
          rcases hm : alookup sm "mac" with _ | macv
          · rw [hm] at hdec; exact absurd hdec (by simp)
          · rw [hm] at hdec
            simp only [] at hdec
            rcases hl : alookup sm "lastmodified" with _ | lv
            · rw [hl] at hdec; exact absurd hdec (by simp)
            · rw [hl] at hdec
              cases lv with
              | str lm =>
                simp only [] at hdec
                rcases hdl : decryptLeaf macv key lm none none ver with err | origh
                · rw [hdl] at hdec; exact absurd hdec (by simp)
                · rw [hdl] at hdec
                  simp only [] at hdec
                  by_cases hne : origh.1 ≠ Node.str (hexdigestUpper (r.2.2.1.getD ""))
                  · rw [if_pos hne] at hdec; exact absurd hdec (by simp)
                  · rw [if_neg hne] at hdec
                    simp only [Except.ok.injEq, Prod.mk.injEq] at hdec
                    exact hdec.2.symm
              | int n => exact absurd hdec (by simp)
              | float f => exact absurd hdec (by simp)
              | bool b2 => exact absurd hdec (by simp)
              | bytes b2 => exact absurd hdec (by simp)
              | enc e0 => exact absurd hdec (by simp)
              | map fs2 => exact absurd hdec (by simp)
              | arr xs2 => exact absurd hdec (by simp)
        | str s => exact absurd hdec (by simp)
        | int n => exact absurd hdec (by simp)
        | float f => exact absurd hdec (by simp)
        | bool b2 => exact absurd hdec (by simp)
        | bytes b2 => exact absurd hdec (by simp)
        | enc e0 => exact absurd hdec (by simp)
        | arr xs2 => exact absurd hdec (by simp)

mutual
theorem pdN (v : Node) (key : Nat) (aad : String) (st : Stash)
    (dg : Option String) (ver : Nat) (r : Node × Option Stash × Option String)
    (hdec : walkDecNode v key aad (some st) dg ver = .ok r)
    (hwf : wfKeysN v = true) (p : List PathC) (e : Envelope)
    (hget : getAt v p = some (.enc e)) :
    ∃ st1, stashAt r.2.1 p = some st1 ∧
      ∃ a, st1.dataF = some (SLeaf.mk e.iv a e.data) := by
  cases v with
  | map fs =>
    rw [walkDecNode] at hdec
    cases hF : walkDecFields fs key aad (some st) dg false ver aad with
    | error err => rw [hF] at hdec; exact absurd hdec (by simp)
    | ok rr =>
      rw [hF] at hdec
      simp only [] at hdec
      injection hdec with h
      subst h
      rw [wfKeysN, Bool.and_eq_true] at hwf
      exact pdF fs key aad st dg false ver aad rr hF (of_decide_eq_true hwf.1) hwf.2
        p e hget (headNotSops_false p)
  | arr xs =>
    rw [walkDecNode] at hdec
    cases hI : walkDecItems xs key aad (some st) dg ver 0 with
    | error err => rw [hI] at hdec; exact absurd hdec (by simp)
    | ok rr =>
      rw [hI] at hdec
      simp only [] at hdec
      injection hdec with h
      subst h
      rw [wfKeysN] at hwf
      cases p with
      | nil => simp [getAt] at hget
      | cons c p' =>
        cases c with
        | key k => simp [getAt] at hget
        | idx j =>
          have h := pdI xs key aad st dg ver 0 rr hI hwf j p' e hget
          simpa using h
  | str s =>
    cases p with
    | nil => simp [getAt] at hget
    | cons c p' => cases c <;> simp [getAt] at hget
  | int n =>
    cases p with
    | nil => simp [getAt] at hget
    | cons c p' => cases c <;> simp [getAt] at hget
  | float f =>
    cases p with
    | nil => simp [getAt] at hget
    | cons c p' => cases c <;> simp [getAt] at hget
  | bool b2 =>
    cases p with
    | nil => simp [getAt] at hget
    | cons c p' => cases c <;> simp [getAt] at hget
  | bytes b2 =>
    cases p with
    | nil => simp [getAt] at hget
    | cons c p' => cases c <;> simp [getAt] at hget
  | enc e0 =>
    cases p with
    | cons c p' => cases c <;> simp [getAt] at hget
    | nil =>
      rw [getAt] at hget
      injection hget with h
      injection h with h2
      subst h2
      rw [walkDecNode_enc] at hdec
      by_cases hc : (e0.tagKey = key ∧ e0.tagIv = e0.iv ∧ e0.tagAad = aad ∧ e0.tagCt = e0.data)
      · rw [decryptLeaf, if_pos hc] at hdec
        simp only [Option.map] at hdec
        cases hdt : decodeTyped (if 8 ≤ ver then e0.valtype else "str") e0.data with
        | error err => rw [hdt] at hdec; exact absurd hdec (by simp)
        | ok v2 =>
          rw [hdt] at hdec
          simp only [] at hdec
          injection hdec with h
          subst h
          exact ⟨Stash.mk (some ⟨e0.iv, aad, e0.data⟩) st.skids st.ikids,
            by simp [stashAt], aad, rfl⟩
      · rw [decryptLeaf, if_neg hc] at hdec
        exact absurd hdec (by simp)

theorem pdF (fields : List (String × Node)) (key : Nat) (aad : String) (st : Stash)
    (dg : Option String) (b : Bool) (ver : Nat) (carry : String)
    (r : List (String × Node) × Option Stash × Option String × String)
    (hdec : walkDecFields fields key aad (some st) dg b ver carry = .ok r)
    (hnd : (fields.map Prod.fst).Nodup)
    (hwf : wfKeysF fields = true)
    (p : List PathC) (e : Envelope)
    (hget : getAt (.map fields) p = some (.enc e))
    (hns : headNotSops b p) :
    ∃ st1, stashAt r.2.1 p = some st1 ∧
      ∃ a, st1.dataF = some (SLeaf.mk e.iv a e.data) := by
  cases fields with
  | nil =>
    cases p with
    | nil => simp [getAt] at hget
    | cons c p' => cases c <;> simp [getAt, alookup] at hget
  | cons hd rest =>
    obtain ⟨k0, v0⟩ := hd
    cases p with
    | nil => simp [getAt] at hget
    | cons c p' =>
      cases c with
      | idx i => simp [getAt] at hget
      | key k =>
        rw [getAt, alookup] at hget
        simp only [List.map_cons, List.nodup_cons] at hnd
        obtain ⟨hk0nm, hnd2⟩ := hnd
        rw [wfKeysF, Bool.and_eq_true] at hwf
        obtain ⟨hwfv, hwfr⟩ := hwf
        by_cases hks : (b = true ∧ k0 = "sops")
        · rw [walkDecFields, if_pos hks] at hdec
          cases hr : walkDecFields rest key aad (some st) dg b ver carry with
          | error err => rw [hr] at hdec; exact absurd hdec (by simp)
          | ok rr =>
            rw [hr] at hdec
            simp only [] at hdec
            injection hdec with h
            subst h
            by_cases hke : k0 = k
            · exact absurd (hke ▸ hks.2) (hns hks.1)
            · rw [if_neg hke] at hget
              exact pdF rest key aad st dg b ver carry rr hr hnd2 hwfr
                (.key k :: p') e (by rw [getAt]; exact hget) hns
        · rw [walkDecFields, if_neg hks] at hdec
          simp only [Option.map] at hdec
          cases hn : walkDecNode v0 key (if 9 ≤ ver then aad ++ k0 ++ ":" else carry ++ k0)
              (some Stash.fresh) dg ver with
          | error err => rw [hn] at hdec; exact absurd hdec (by simp)
          | ok trip =>
            obtain ⟨v', child', dg'⟩ := trip
            rw [hn] at hdec
            simp only [] at hdec
            by_cases hke : k0 = k
            · subst hke
              rw [if_pos rfl] at hget
              simp only [] at hget
              obtain ⟨st1, hsa1, a, hda⟩ :=
                pdN v0 key (if 9 ≤ ver then aad ++ k0 ++ ":" else carry ++ k0) Stash.fresh
                  dg ver (v', child', dg') hn hwfv p' e hget
              simp only [] at hsa1
              cases child' with
              | none => rw [stashAt_none] at hsa1; exact absurd hsa1 (by simp)
              | some c =>
                simp only [] at hdec
                cases hr : walkDecFields rest key aad
                    (some (Stash.mk st.dataF (aset st.skids k0 c) st.ikids)) dg' b ver
                    (if 9 ≤ ver then carry
                     else if 9 ≤ ver then aad ++ k0 ++ ":" else carry ++ k0) with
                | error err => rw [hr] at hdec; exact absurd hdec (by simp)
                | ok rr =>
                  rw [hr] at hdec
                  simp only [] at hdec
                  injection hdec with h
                  subst h
                  obtain ⟨stF, hF1, hF2, hF3, hF4⟩ := frameF rest key aad
                    (Stash.mk st.dataF (aset st.skids k0 c) st.ikids) dg' b ver _ rr hr
                  refine ⟨st1, ?_, a, hda⟩
                  rw [stashAt, hF1]
                  simp only [Option.some_bind]
                  have hlk : alookup stF.skids k0 = some c := by
                    rw [hF4 k0 (alookup_eq_none_of_not_mem rest k0 hk0nm)]
                    exact alookup_aset_self st.skids k0 c
                  rw [hlk]
                  exact hsa1
            · rw [if_neg hke] at hget
              cases child' with
              | none =>
                simp only [] at hdec
                cases hr : walkDecFields rest key aad (some st) dg' b ver
                    (if 9 ≤ ver then carry
                     else if 9 ≤ ver then aad ++ k0 ++ ":" else carry ++ k0) with
                | error err => rw [hr] at hdec; exact absurd hdec (by simp)
                | ok rr =>
                  rw [hr] at hdec
                  simp only [] at hdec
                  injection hdec with h
                  subst h
                  exact pdF rest key aad st dg' b ver _ rr hr hnd2 hwfr
                    (.key k :: p') e (by rw [getAt]; exact hget) hns
              | some c =>
                simp only [] at hdec
                cases hr : walkDecFields rest key aad
                    (some (Stash.mk st.dataF (aset st.skids k0 c) st.ikids)) dg' b ver
                    (if 9 ≤ ver then carry
                     else if 9 ≤ ver then aad ++ k0 ++ ":" else carry ++ k0) with
                | error err => rw [hr] at hdec; exact absurd hdec (by simp)
                | ok rr =>
                  rw [hr] at hdec
                  simp only [] at hdec
                  injection hdec with h
                  subst h
                  exact pdF rest key aad (Stash.mk st.dataF (aset st.skids k0 c) st.ikids)
                    dg' b ver _ rr hr hnd2 hwfr
                    (.key k :: p') e (by rw [getAt]; exact hget) hns

theorem pdI (items : List Node) (key : Nat) (aad : String) (st : Stash)
    (dg : Option String) (ver : Nat) (i : Nat)
    (r : List Node × Option Stash × Option String)
    (hdec : walkDecItems items key aad (some st) dg ver i = .ok r)
    (hwf : wfKeysI items = true)
    (j : Nat) (p' : List PathC) (e : Envelope)
    (hget : getAt (.arr items) (.idx j :: p') = some (.enc e)) :
    ∃ st1, stashAt r.2.1 (.idx (i + j) :: p') = some st1 ∧
      ∃ a, st1.dataF = some (SLeaf.mk e.iv a e.data) := by
  cases items with
  | nil => simp [getAt, List.get?] at hget
  | cons v rest =>
    rw [wfKeysI, Bool.and_eq_true] at hwf
    obtain ⟨hwfv, hwfr⟩ := hwf
    rw [walkDecItems] at hdec
    simp only [Option.map] at hdec
    cases hn : walkDecNode v key aad (some Stash.fresh) dg ver with
    | error err => rw [hn] at hdec; exact absurd hdec (by simp)
    | ok trip =>
      obtain ⟨v', child', dg'⟩ := trip
      rw [hn] at hdec
      simp only [] at hdec
      cases j with
      | zero =>
        rw [getAt] at hget
        simp only [List.get?] at hget
        obtain ⟨st1, hsa1, a, hda⟩ :=
          pdN v key aad Stash.fresh dg ver (v', child', dg') hn hwfv p' e hget
        simp only [] at hsa1
        cases child' with
        | none => rw [stashAt_none] at hsa1; exact absurd hsa1 (by simp)
        | some c =>
          simp only [] at hdec
          cases hr : walkDecItems rest key aad
              (some (Stash.mk st.dataF st.skids (iset st.ikids i c))) dg' ver (i + 1) with
          | error err => rw [hr] at hdec; exact absurd hdec (by simp)
          | ok rr =>
            rw [hr] at hdec
            simp only [] at hdec
            injection hdec with h
            subst h
            obtain ⟨stF, hF1, hF2, hF3, hF4⟩ := frameI rest key aad
              (Stash.mk st.dataF st.skids (iset st.ikids i c)) dg' ver (i + 1) rr hr
            refine ⟨st1, ?_, a, hda⟩
            rw [stashAt, hF1]
            simp only [Option.some_bind, Nat.add_zero]
            have hlk : ilookup stF.ikids i = some c := by
              rw [hF4 i (by omega)]
              exact ilookup_iset_self st.ikids i c
            rw [hlk]
            exact hsa1
      | succ j2 =>
        rw [getAt] at hget
        simp only [List.get?] at hget
        cases child' with
        | none =>
          simp only [] at hdec
          cases hr : walkDecItems rest key aad (some st) dg' ver (i + 1) with
          | error err => rw [hr] at hdec; exact absurd hdec (by simp)
          | ok rr =>
            rw [hr] at hdec
            simp only [] at hdec
            injection hdec with h
            subst h
            have h := pdI rest key aad st dg' ver (i + 1) rr hr hwfr j2 p' e
              (by rw [getAt]; exact hget)
            rw [show i + 1 + j2 = i + (j2 + 1) from by omega] at h
            exact h
        | some c =>
          simp only [] at hdec
          cases hr : walkDecItems rest key aad
              (some (Stash.mk st.dataF st.skids (iset st.ikids i c))) dg' ver (i + 1) with
          | error err => rw [hr] at hdec; exact absurd hdec (by simp)
          | ok rr =>
            rw [hr] at hdec
            simp only [] at hdec
            injection hdec with h
            subst h
            have h := pdI rest key aad (Stash.mk st.dataF st.skids (iset st.ikids i c))
              dg' ver (i + 1) rr hr hwfr j2 p' e (by rw [getAt]; exact hget)
            rw [show i + 1 + j2 = i + (j2 + 1) from by omega] at h
            exact h
end

/-- Claim C6, as stated, is false: `walk_list_and_encrypt` initializes the
leaf stash dict `nstash` once before its element loop and reassigns it only
at indices present in the stash, so the appended duplicate element of
`D2l` — index 1, which has no stash entry of its own (`stashAt` is `none`
there) — inherits index 0's stash dict and is encrypted with the stashed
IV 77 rather than a freshly generated one: no draw of this run's entropy
stream `ivsB` can produce 77. -/
theorem C6_counterexample :
    walk_and_decrypt Dl 7 "" (some Stash.fresh) 9 true
      = .ok ([("c", .arr [.str "x"])], some stL) ∧
    walk_and_encrypt D2l 7 "" (some stL) "NOW" ivsB 0 = .ok (encD2l, "xx", 1) ∧
    stashAt (some stL) [.key "c", .idx 1] = none ∧
    getAt (.map encD2l) [.key "c", .idx 1] = some (.enc (mkEnv "x" 7 77 "c:" "str")) ∧
    (mkEnv "x" 7 77 "c:" "str").iv = 77 ∧
    (∀ j, ivsB j ≠ 77) := by
  refine ⟨?_, ?_, by decide, by decide, rfl, ?_⟩
  · simp [walk_and_decrypt, walkDecFields, walkDecNode, walkDecItems, decryptLeaf,
      decodeTyped, alookup, aset, iset, ilookup, Dl, stL, mkEnv, Stash.fresh, Stash.skids,
      Stash.ikids, Stash.dataF, Option.map, Except.map]
  · simp [walk_and_encrypt, walkEncFields, walkEncNode, walkEncItems, encryptLeaf,
      encodeClear, valtypeOf, mkEnv, alookup, aset, ilookup, D2l, stL, encD2l, ivsB,
      hexdigestUpper, shaBytes, byteHex, hexChar, String.join, Stash.dataF, Stash.skids,
      Stash.ikids]
  · intro j
    simp only [ivsB]
    omega

/-- Claim C6, amended: when an encrypt runs with the stash populated by a
prior decrypt, a leaf envelope of the output (path `p` outside the root
sops entry) reuses a stashed IV exactly on a hit of the loop-carried
effective stash `stashAtE`: a mapping key consults its own entry, while a
list element consults its index's entry when present and otherwise
inherits the entry of the nearest preceding present index — the source
initializes `nstash` once before the element loop — so an element at an
index absent from the stash can still reuse a preceding sibling's stashed
IV when the cleartexts match.  On a miss of that effective stash the IV is
freshly drawn from this encryption's entropy stream.  The prior decrypt
stashed, at every position that held a valid envelope `e`, exactly `e`'s
cleartext and IV, so at stashed positions the hit occurs precisely when
the new cleartext equals `e`'s, and the reused IV is then `e.iv`. -/
theorem C6_stash_iv_reuse
    (D : List (String × Node)) (key : Nat) (st0 : Stash) (ver : Nat) (im : Bool)
    (decD : List (String × Node)) (st2 : Option Stash)
    (D2 : List (String × Node)) (now : String) (ivs : Nat → Nat) (g : Nat)
    (encD2 : List (String × Node)) (dg : String) (g2 : Nat)
    (p : List PathC) (e2 : Envelope)
    (hdec : walk_and_decrypt D key "" (some st0) ver im = .ok (decD, st2))
    (hwf : wfKeysRoot D = true)
    (henc : walk_and_encrypt D2 key "" st2 now ivs g = .ok (encD2, dg, g2))
    (hns : headNotSops true p)
    (hgetNew : getAt (.map encD2) p = some (.enc e2)) :
    (∀ iv0, stashIvHit (stashAtE st2 p) e2.data = some iv0 → e2.iv = iv0) ∧
    (stashIvHit (stashAtE st2 p) e2.data = none →
      ∃ j, g ≤ j ∧ j < g2 ∧ e2.iv = ivs j) ∧
    (∀ e, getAt (.map D) p = some (.enc e) →
      stashIvHit (stashAt st2 p) e2.data
        = if e.data = e2.data then some e.iv else none) := by
  obtain ⟨rD, hF, hst2⟩ := wd_stash D key "" (some st0) ver im decD st2 hdec
  subst hst2
  rw [wfKeysRoot, Bool.and_eq_true] at hwf
  rw [walk_and_encrypt] at henc
  simp only [] at henc
  rcases halo : alookup (walkEncFields D2 key "" rD.2.1 (some "") true ivs g).1 "sops"
    with _ | sv
  · rw [halo] at henc
    exact absurd henc (by simp)
  · rw [halo] at henc
    cases sv with
    | map sm =>
      simp only [Except.ok.injEq, Prod.mk.injEq] at henc
      obtain ⟨h1, h2, h3⟩ := henc
      subst h1
      rw [encryptLeaf_g_none] at h3
      cases p with
      | nil => simp [getAt] at hgetNew
      | cons c p' =>
        cases c with
        | idx i => simp [getAt] at hgetNew
        | key k =>
          have hk : k ≠ "sops" := hns rfl
          rw [getAt, alookup_aset_ne _ _ _ _ (fun h => hk h.symm)] at hgetNew
          obtain ⟨v0, hg1, hg2, hg3, hg4, hg5, hg6, hg7, hg8, hg9⟩ :=
            peF D2 key "" rD.2.1 (some "") true ivs g (.key k :: p') e2
              (by rw [getAt]; exact hgetNew) hns
          refine ⟨?_, ?_, ?_⟩
          · intro iv0 hhit
            exact hg8 iv0 (by rw [← hg2]; exact hhit)
          · intro hmiss
            obtain ⟨j, hj1, hj2, hj3⟩ := hg9 (by rw [← hg2]; exact hmiss)
            exact ⟨j, hj1, by omega, hj3⟩
          · intro e hgetOld
            obtain ⟨st1, hsa, a, hda⟩ :=
              pdF D key "" st0 (if im then none else some "") true ver "" rD hF
                (of_decide_eq_true hwf.1) hwf.2 (.key k :: p') e hgetOld hns
            rw [hsa]
            simp only [stashIvHit, hda]
    | str s => exact absurd henc (by simp)
    | int n => exact absurd henc (by simp)
    | float f => exact absurd henc (by simp)
    | bool b2 => exact absurd henc (by simp)
    | bytes b2 => exact absurd henc (by simp)
    | enc e0 => exact absurd henc (by simp)
    | arr xs => exact absurd henc (by simp)

/-- Closed instance of the amended stash IV-reuse claim: decrypting the
two-leaf document `Dw` populates the stash `stW`; re-encrypting the edited
`D2w` with it reuses IV 77 for the unchanged `a` leaf (a hit of the
effective stash) and draws the fresh IV 5000 for the changed `b` leaf (a
miss). -/
theorem C6_stash_iv_reuse_witness :
    ((∀ iv0, stashIvHit (stashAtE (some stW) [.key "a"]) (mkEnv "x" 7 77 "a:" "str").data
        = some iv0 → (mkEnv "x" 7 77 "a:" "str").iv = iv0) ∧
     (stashIvHit (stashAtE (some stW) [.key "a"]) (mkEnv "x" 7 77 "a:" "str").data = none →
        ∃ j, 0 ≤ j ∧ j < 2 ∧ (mkEnv "x" 7 77 "a:" "str").iv = ivsB j) ∧
     (∀ e, getAt (.map Dw) [.key "a"] = some (.enc e) →
        stashIvHit (stashAt (some stW) [.key "a"]) (mkEnv "x" 7 77 "a:" "str").data
          = if e.data = (mkEnv "x" 7 77 "a:" "str").data then some e.iv else none)) ∧
    ((∀ iv0, stashIvHit (stashAtE (some stW) [.key "b"])
          (mkEnv "CHANGED" 7 5000 "b:" "str").data
        = some iv0 → (mkEnv "CHANGED" 7 5000 "b:" "str").iv = iv0) ∧
     (stashIvHit (stashAtE (some stW) [.key "b"])
          (mkEnv "CHANGED" 7 5000 "b:" "str").data = none →
        ∃ j, 0 ≤ j ∧ j < 2 ∧ (mkEnv "CHANGED" 7 5000 "b:" "str").iv = ivsB j) ∧
     (∀ e, getAt (.map Dw) [.key "b"] = some (.enc e) →
        stashIvHit (stashAt (some stW) [.key "b"])
            (mkEnv "CHANGED" 7 5000 "b:" "str").data
          = if e.data = (mkEnv "CHANGED" 7 5000 "b:" "str").data
            then some e.iv else none)) :=
  ⟨C6_stash_iv_reuse Dw 7 Stash.fresh 9 true [("a", .str "x"), ("b", .str "y")] (some stW)
      D2w "NOW" ivsB 0 encD2w "xCHANGED" 2 [.key "a"] (mkEnv "x" 7 77 "a:" "str")
      (by simp [walk_and_decrypt, walkDecFields, walkDecNode, walkDecItems, decryptLeaf,
        decodeTyped, alookup, aset, Dw, stW, mkEnv, Stash.fresh, Stash.skids, Stash.ikids,
        Stash.dataF, Option.map, Except.map])
      (by decide)
      (by simp [walk_and_encrypt, walkEncFields, walkEncNode, walkEncItems, encryptLeaf,
        encodeClear, valtypeOf, mkEnv, alookup, aset, ilookup, D2w, stW, encD2w, ivsB,
        hexdigestUpper, shaBytes, byteHex, hexChar, String.join, Stash.dataF, Stash.skids,
        Stash.ikids])
      (by simp [headNotSops]) (by decide),
   C6_stash_iv_reuse Dw 7 Stash.fresh 9 true [("a", .str "x"), ("b", .str "y")] (some stW)
      D2w "NOW" ivsB 0 encD2w "xCHANGED" 2 [.key "b"] (mkEnv "CHANGED" 7 5000 "b:" "str")
      (by simp [walk_and_decrypt, walkDecFields, walkDecNode, walkDecItems, decryptLeaf,
        decodeTyped, alookup, aset, Dw, stW, mkEnv, Stash.fresh, Stash.skids, Stash.ikids,
        Stash.dataF, Option.map, Except.map])
      (by decide)
      (by simp [walk_and_encrypt, walkEncFields, walkEncNode, walkEncItems, encryptLeaf,
        encodeClear, valtypeOf, mkEnv, alookup, aset, ilookup, D2w, stW, encD2w, ivsB,
        hexdigestUpper, shaBytes, byteHex, hexChar, String.join, Stash.dataF, Stash.skids,
        Stash.ikids])
      (by simp [headNotSops]) (by decide)⟩
